import Mathlib

/-
Verification of the FAIRDatabase anonymization engine against its
natural-language specification.

The embedding translates the Python sources:
  - backend/src/anonymization/utils/helpers.py   (partitioner, entropy, t-closeness)
  - backend/src/anonymization/checks/validators.py
  - backend/src/anonymization/normalized_entropy.py, t_closeness.py
  - AnonyBiome/anonymization/p_29.py             (P_29_score)
  - app.py                                       (ensure_privacy enforcement loop)
  - backend/src/privacy/helpers.py               (differential-privacy noise)

Cell values are modelled by an inductive type with decidable equality
(integers and strings); floating-point metric values are modelled by the
exact rationals (probabilities, t-closeness) and the reals (entropy,
which needs log2).  A pandas DataFrame keyed by group-key strings is
modelled as an association list; dict insertion keeps the first position
of a key and overwrites its value, like a Python dict.
-/

namespace FAIRDatabase

/-- Scalar cell values of a dataset column (numeric or text). -/
inductive Val : Type where
  | vInt : Int → Val
  | vStr : String → Val
deriving DecidableEq, Repr

/-- Rendering of a value inside an f-string, as in f"{col}: {val}". -/
def Val.render : Val → String
  | Val.vInt n => toString n
  | Val.vStr s => s

/-- A row is a mapping from column name to value (association list). -/
abbrev Row := List (String × Val)

/-- A dataset is an ordered sequence of rows. -/
abbrev Dataset := List Row

/-- Column access row[col]; the default is never reached on well-formed
input (pandas would raise on a missing column). -/
def Row.get (r : Row) (c : String) : Val :=
  match r.find? (fun p => p.1 == c) with
  | some p => p.2
  | none => Val.vStr ""

/-- The tuple of quasi-identifier values of a row. -/
def quasiTuple (quasi_cols : List String) (r : Row) : List Val :=
  quasi_cols.map (fun c => Row.get r c)

/-- The full column dataset[col] as a list of values. -/
def colVals (df : Dataset) (c : String) : List Val :=
  df.map (fun r => Row.get r c)

/-- The distinct quasi-identifier tuples of the dataset, in first-occurrence
order.  pandas groupby iterates groups in sorted key order; every use below
is order-independent, so first-occurrence order is an equivalent embedding. -/
def distinctKeys (df : Dataset) (quasi_cols : List String) : List (List Val) :=
  (df.map (quasiTuple quasi_cols)).dedup

/-- Row indices whose quasi-identifier tuple equals the given key. -/
def partitionOfKey (df : Dataset) (quasi_cols : List String) (key : List Val) : List Nat :=
  (List.range df.length).filter (fun i => decide (quasiTuple quasi_cols (df.getD i []) = key))

/-- compute_partition_by_ids (helpers.py): splits the dataset into
equivalence groups of row indices, one group per distinct
quasi-identifier tuple. -/
def compute_partition_by_ids (df : Dataset) (quasi_cols : List String) : List (List Nat) :=
  (distinctKeys df quasi_cols).map (partitionOfKey df quasi_cols)

/-- get_group_key (helpers.py): readable key "col1: val1, col2: val2". -/
def get_group_key (quasi_cols : List String) (group_key : List Val) : String :=
  String.intercalate ", "
    (List.zipWith (fun c v => c ++ ": " ++ Val.render v) quasi_cols group_key)

/-- get_group_key_from_partition (helpers.py): group key from the first
row of the partition. -/
def get_group_key_from_partition (df : Dataset) (group_indices : List Nat)
    (quasi_cols : List String) : String :=
  get_group_key quasi_cols
    (quasiTuple quasi_cols (df.getD (group_indices.headD 0) []))

/-- Insertion into a dict rendered as an association list: an existing key
keeps its position and gets the new value, a new key is appended. -/
def dictInsert {A : Type} (d : List (String × A)) (k : String) (v : A) :
    List (String × A) :=
  if d.any (fun p => p.1 == k) then
    d.map (fun p => if p.1 == k then (k, v) else p)
  else d ++ [(k, v)]

/-- k_anonymity_for_sensitive_attr (k_anonymity.py): mapping
group key -> size of the partition. -/
def k_anonymity_for_sensitive_attr (df : Dataset) (quasi_idents : List String) :
    List (String × Nat) :=
  (compute_partition_by_ids df quasi_idents).foldl
    (fun d g => dictInsert d (get_group_key_from_partition df g quasi_idents) g.length)
    []

/-- Relative frequency of a value in a list (value_counts(normalize=True)).
Empty list gives 0 (the sources guard against this case). -/
def probOf (vs : List Val) (v : Val) : ℚ :=
  (vs.count v : ℚ) / (vs.length : ℚ)

/-- Total-variation distance 0.5 * sum |p_local - p_global| over the global
support (the local distribution is reindexed onto the global support with
fill value 0; values absent locally get probability 0).  The sources sort
the support before summing, which does not change the sum. -/
def t_closeness_of (glob loc : List Val) : ℚ :=
  (1 / 2) * (((glob.dedup).map (fun v => |probOf loc v - probOf glob v|)).sum)

/-- Values of a sensitive column restricted to one partition
(df.iloc[group][sensitive_col]). -/
def subsetVals (df : Dataset) (c : String) (g : List Nat) : List Val :=
  g.map (fun i => Row.get (df.getD i []) c)

/-- compute_categorical_t_closeness (helpers.py): mapping
group key -> t-closeness of the partition for one sensitive column. -/
def compute_categorical_t_closeness (df : Dataset) (quasi_cols : List String)
    (sensitive_col : String) : List (String × ℚ) :=
  (compute_partition_by_ids df quasi_cols).foldl
    (fun d g =>
      if (subsetVals df sensitive_col g).isEmpty then d
      else dictInsert d (get_group_key_from_partition df g quasi_cols)
        (t_closeness_of (colVals df sensitive_col) (subsetVals df sensitive_col g)))
    []

/-- compute_numeric_t_closeness (helpers.py): identical computation to the
categorical variant (the Python versions differ only in how the support is
sorted, which is irrelevant to the sum). -/
def compute_numeric_t_closeness (df : Dataset) (quasi_cols : List String)
    (sensitive_col : String) : List (String × ℚ) :=
  (compute_partition_by_ids df quasi_cols).foldl
    (fun d g =>
      if (subsetVals df sensitive_col g).isEmpty then d
      else dictInsert d (get_group_key_from_partition df g quasi_cols)
        (t_closeness_of (colVals df sensitive_col) (subsetVals df sensitive_col g)))
    []

/-- pandas is_numeric_dtype of a column in this value model: every cell is
an integer. -/
def is_numeric_dtype (vs : List Val) : Bool :=
  vs.all (fun v => match v with | Val.vInt _ => true | Val.vStr _ => false)

/-- A metric table (pandas DataFrame built with from_dict): ordered columns,
each an association list from group-key index label to cell value.  A key
missing from one column is a NaN cell in pandas; here it is simply absent. -/
abbrev Frame (A : Type) := List (String × List (String × A))

/-- t_closeness_for_sensitive_attr (t_closeness.py): one frame column per
sensitive attribute. -/
def t_closeness_for_sensitive_attr (df : Dataset) (quasi_ident sens_attr : List String) :
    Frame ℚ :=
  sens_attr.map (fun s =>
    (s, if is_numeric_dtype (colVals df s)
        then compute_numeric_t_closeness df quasi_ident s
        else compute_categorical_t_closeness df quasi_ident s))

/-- Minimum of a list (pandas .min(): NaN, i.e. none, on an empty list). -/
def optMin {α : Type} [Min α] : List α → Option α
  | [] => none
  | x :: xs => some (xs.foldl min x)

/-- Maximum of a list (pandas .max(): NaN, i.e. none, on an empty list). -/
def optMax {α : Type} [Max α] : List α → Option α
  | [] => none
  | x :: xs => some (xs.foldl max x)

/-- Mean of a list (pandas .mean(): NaN, i.e. none, on an empty list). -/
def meanOpt {α : Type} [DivisionRing α] (l : List α) : Option α :=
  if l.isEmpty then none else some (l.sum / (l.length : α))

open scoped Classical

/-- Shannon entropy -sum p * log2 p over the non-zero probabilities of the
empirical distribution of a list of values (probs = value_counts(normalize=True)).
Floating-point log2 is modelled by the real logb 2. -/
noncomputable def entropyOf (vs : List Val) : ℝ :=
  -(((vs.dedup).map (fun v => (probOf vs v : ℝ) * Real.logb 2 (probOf vs v))).sum)

/-- compute_numeric_normalized_entropy (helpers.py): if the column has at
most one distinct value in the whole dataset, or the dataset is empty, the
empty mapping is returned; otherwise each non-empty partition is mapped to
its entropy divided by log2 of the dataset-wide distinct count. -/
noncomputable def compute_numeric_normalized_entropy (df : Dataset)
    (quasi_cols : List String) (sensitive_col : String) : List (String × ℝ) :=
  let unique_vals := (colVals df sensitive_col).dedup.length
  if unique_vals ≤ 1 ∨ df.length = 0 then []
  else
    (compute_partition_by_ids df quasi_cols).foldl
      (fun d g =>
        if (subsetVals df sensitive_col g).isEmpty then d
        else dictInsert d (get_group_key_from_partition df g quasi_cols)
          (entropyOf (subsetVals df sensitive_col g) / Real.logb 2 unique_vals))
      []

/-- compute_categorical_normalized_entropy (helpers.py): the identical
computation (the Python variants differ only in iteration style). -/
noncomputable def compute_categorical_normalized_entropy (df : Dataset)
    (quasi_cols : List String) (sensitive_col : String) : List (String × ℝ) :=
  let unique_vals := (colVals df sensitive_col).dedup.length
  if unique_vals ≤ 1 ∨ df.length = 0 then []
  else
    (compute_partition_by_ids df quasi_cols).foldl
      (fun d g =>
        if (subsetVals df sensitive_col g).isEmpty then d
        else dictInsert d (get_group_key_from_partition df g quasi_cols)
          (entropyOf (subsetVals df sensitive_col g) / Real.logb 2 unique_vals))
      []

/-- normalized_entropy_for_sensitive_attr (normalized_entropy.py): one frame
column per sensitive attribute, numeric or categorical by dtype. -/
noncomputable def normalized_entropy_for_sensitive_attr (df : Dataset)
    (quasi_ident sens_ident : List String) : Frame ℝ :=
  sens_ident.map (fun s =>
    (s, if is_numeric_dtype (colVals df s)
        then compute_numeric_normalized_entropy df quasi_ident s
        else compute_categorical_normalized_entropy df quasi_ident s))

/-- PrivEval (validators.py): the named tuple returned by validate_privacy.
score is an Option so that the NaN produced by pandas reductions over empty
data is represented by none. -/
structure PrivEval : Type where
  score : Option ℝ
  problematic_info : List (String × String)
  reasons : List String
  min_k : Option Nat
  min_l : Option ℝ
  max_t : Option ℚ
  t_numeric : Frame ℚ

/-- check_k_anonymity_violations (validators.py): true when the minimal k
is at most 1; the violating rows are those with k exactly 1. -/
def check_k_anonymity_violations (k_df : List (String × Nat)) :
    Bool × List (String × String) :=
  if (optMin (k_df.map (fun p => p.2))).elim false (fun m => m ≤ 1) then
    (true, (k_df.filter (fun p => p.2 == 1)).map (fun p => (p.1, "k-anonymity is 1")))
  else (false, [])

/-- check_l_diversity_violations (validators.py): l_df.iloc[:, 1:] drops
the first column of the frame, so only the columns after the first are
inspected for zero entropy cells; a NaN cell (absent key) never equals 0. -/
noncomputable def check_l_diversity_violations (l_df : Frame ℝ) :
    Prop × List (String × String) :=
  let has_issue : Prop := ∃ col ∈ l_df.drop 1, ∃ cell ∈ col.2, cell.2 = 0
  (has_issue,
    if has_issue then
      (l_df.drop 1).flatMap (fun col =>
        (col.2.filter (fun cell => decide (cell.2 = 0))).map
          (fun cell => (cell.1, "normalized entropy l-value is 0 for " ++ col.1)))
    else [])

/-- check_t_closeness_violations (validators.py): every column of the t
frame is inspected; cells strictly above the threshold violate.  The
to_numeric coercion is the identity on this all-rational frame. -/
def check_t_closeness_violations (t_df : Frame ℚ) (threshold : ℚ) :
    Bool × List (String × String) × Frame ℚ :=
  let t_numeric := t_df
  if t_numeric.any (fun col => col.2.any (fun cell => threshold < cell.2)) then
    (true,
      t_numeric.flatMap (fun col =>
        (col.2.filter (fun cell => threshold < cell.2)).map
          (fun cell => (cell.1, "t-value exceeds " ++ toString threshold ++ " for " ++ col.1))),
      t_numeric)
  else (false, [], t_numeric)

/-- validate_privacy (validators.py): runs the three checks, collects
reasons and per-group issues, and records min_k, min_l (over the columns
after the first), max_t.  The score field is 0.0 at this stage. -/
noncomputable def validate_privacy (k_df : List (String × Nat)) (l_df : Frame ℝ)
    (t_df : Frame ℚ) : PrivEval :=
  let kres := check_k_anonymity_violations k_df
  let lres := check_l_diversity_violations l_df
  let tres := check_t_closeness_violations t_df (1 / 2)
  { score := some 0
    problematic_info := kres.2 ++ lres.2 ++ tres.2.1
    reasons :=
      (if kres.1 then ["k-anonymity is 1"] else []) ++
      (if lres.1 then ["normalized entropy l-value is 0 for some attribute"] else []) ++
      (if tres.1 then ["t-value exceeds 0.5 for some attribute"] else [])
    min_k := optMin (k_df.map (fun p => p.2))
    min_l := optMin ((l_df.drop 1).flatMap (fun col => col.2.map (fun cell => cell.2)))
    max_t := optMax (t_df.flatMap (fun col => col.2.map (fun cell => cell.2)))
    t_numeric := tres.2.2 }

/-- compute_normalize_t_values (helpers.py): min-max rescaling of each
column of the t frame; a column with equal min and max becomes all zeros. -/
def compute_normalize_t_values (t_numeric : Frame ℚ) : Frame ℚ :=
  t_numeric.map (fun col =>
    (col.1,
      match optMin (col.2.map (fun cell => cell.2)),
            optMax (col.2.map (fun cell => cell.2)) with
      | some mn, some mx =>
          if mn < mx then col.2.map (fun cell => (cell.1, (cell.2 - mn) / (mx - mn)))
          else col.2.map (fun cell => (cell.1, (0 : ℚ)))
      | _, _ => col.2.map (fun cell => (cell.1, (0 : ℚ)))))

/-- P_29_score (p_29.py): computes the three metric tables, validates
privacy, and either forces score 0.0 (any violation reason present) or
computes the weighted composite score.  pandas mean() skips NaN columns,
which is the filterMap over column means here. -/
noncomputable def P_29_score (df : Dataset) (quasi_idents sens_attr : List String)
    (w_k w_l w_t : ℝ) : PrivEval :=
  let k_df := k_anonymity_for_sensitive_attr df quasi_idents
  let l_df := normalized_entropy_for_sensitive_attr df quasi_idents sens_attr
  let t_df := t_closeness_for_sensitive_attr df quasi_idents sens_attr
  let privEval := validate_privacy k_df l_df t_df
  if privEval.reasons ≠ [] then { privEval with score := some 0 }
  else
    let normalized_l :=
      meanOpt (l_df.filterMap (fun col => meanOpt (col.2.map (fun cell => cell.2))))
    let normalized_t :=
      meanOpt ((compute_normalize_t_values privEval.t_numeric).filterMap
        (fun col => meanOpt (col.2.map (fun cell => ((cell.2 : ℚ) : ℝ)))))
    let score :=
      match privEval.min_k, normalized_l, normalized_t with
      | some min_k, some nl, some nt =>
          some (w_k * (1 - 1 / (min_k : ℝ)) + w_l * nl + w_t * (1 - nt))
      | _, _, _ => none
    { privEval with score := score }

/-- calculate_normalized_entropy (app.py): entropy of one series,
normalized by log2 of the distinct count of the series itself; an empty
or single-valued series gets entropy 0. -/
noncomputable def calculate_normalized_entropy (series : List Val) : ℝ :=
  if series.isEmpty then 0
  else
    let total_entropy := entropyOf series
    let unique_values := series.dedup.length
    if unique_values = 1 then 0
    else total_entropy / Real.logb 2 unique_values

/-- One group of ensure_privacy (app.py): the rows whose quasi-identifier
tuple equals the key. -/
def groupRows (df : Dataset) (quasi_identifiers : List String) (key : List Val) :
    Dataset :=
  df.filter (fun r => quasiTuple quasi_identifiers r == key)

/-- The three per-group threshold conditions of ensure_privacy (app.py):
k-anonymity strictly above k_threshold, every sensitive attribute's
normalized entropy strictly above l_threshold, and every sensitive
attribute's t-closeness at most t_threshold. -/
noncomputable def group_ok (df : Dataset) (quasi_identifiers sensitive_attributes : List String)
    (t_threshold : ℚ) (k_threshold : Nat) (l_threshold : ℝ) (key : List Val) : Prop :=
  let g := groupRows df quasi_identifiers key
  k_threshold < g.length ∧
  (∀ s ∈ sensitive_attributes, l_threshold < calculate_normalized_entropy (colVals g s)) ∧
  (∀ s ∈ sensitive_attributes, t_closeness_of (colVals df s) (colVals g s) ≤ t_threshold)

/-- One deletion pass of ensure_privacy (app.py): remove every row whose
rendered quasi-identifier key belongs to a group violating a condition. -/
noncomputable def deleteBadGroups (df : Dataset)
    (quasi_identifiers sensitive_attributes : List String)
    (t_threshold : ℚ) (k_threshold : Nat) (l_threshold : ℝ) : Dataset :=
  let groups_to_delete :=
    ((distinctKeys df quasi_identifiers).filter
      (fun key => decide (¬ group_ok df quasi_identifiers sensitive_attributes
        t_threshold k_threshold l_threshold key))).map
      (get_group_key quasi_identifiers)
  df.filter (fun r =>
    decide (get_group_key quasi_identifiers (quasiTuple quasi_identifiers r)
      ∉ groups_to_delete))

/-- The while-True loop of ensure_privacy (app.py), with explicit fuel.
On an empty dataset the body raises a KeyError (an empty grouped frame has
no k-anonymity column), modelled as none; fuel exhaustion is also none and
is unreachable for the initial fuel because every deletion pass removes at
least one whole non-empty group. -/
noncomputable def ensure_privacy_loop (quasi_identifiers sensitive_attributes : List String)
    (t_threshold : ℚ) (k_threshold : Nat) (l_threshold : ℝ) :
    Nat → Dataset → Option Dataset
  | 0, _ => none
  | Nat.succ fuel, df =>
    if df.isEmpty then none
    else if ∀ key ∈ distinctKeys df quasi_identifiers,
        group_ok df quasi_identifiers sensitive_attributes
          t_threshold k_threshold l_threshold key then
      some df
    else
      ensure_privacy_loop quasi_identifiers sensitive_attributes
        t_threshold k_threshold l_threshold fuel
        (deleteBadGroups df quasi_identifiers sensitive_attributes
          t_threshold k_threshold l_threshold)

/-- ensure_privacy (app.py): iterate evaluation and row removal until every
remaining group satisfies every threshold. -/
noncomputable def ensure_privacy (df : Dataset)
    (quasi_identifiers sensitive_attributes : List String)
    (t_threshold : ℚ) (k_threshold : Nat) (l_threshold : ℝ) : Option Dataset :=
  ensure_privacy_loop quasi_identifiers sensitive_attributes
    t_threshold k_threshold l_threshold (df.length + 1) df

/-- Cell values of the differential-privacy noise module: after Laplace
noising a numeric cell holds a real number. -/
inductive NVal : Type where
  | num : ℝ → NVal
  | cat : String → NVal

/-- A row of the noise module's dataset. -/
abbrev NRow := List (String × NVal)

/-- The noise module's dataset. -/
abbrev NDataset := List NRow

/-- Column access for the noise module. -/
def NRow.get (r : NRow) (c : String) : NVal :=
  match r.find? (fun p => p.1 == c) with
  | some p => p.2
  | none => NVal.cat ""

/-- A full column of the noise module's dataset. -/
def nColVals (df : NDataset) (c : String) : List NVal :=
  df.map (fun r => NRow.get r c)

/-- Numeric reading of a cell (a numeric column holds only num cells). -/
def NVal.toNum : NVal → ℝ
  | NVal.num x => x
  | NVal.cat _ => 0

/-- The numeric column as reals. -/
def numColVals (df : NDataset) (c : String) : List ℝ :=
  (nColVals df c).map NVal.toNum

/-- Randomness consumed by add_noise_to_df: per column and row index, a
uniform draw for the randomized-response coin, an index draw for the
uniform category choice, and a uniform draw for the Laplace sampler. -/
structure NoiseOracle : Type where
  rr_keep : String → Nat → ℚ
  rr_pick : String → Nat → Nat
  lap_u : String → Nat → ℝ

/-- add_randomized_response (privacy/helpers.py): with probability p keep
the original value, otherwise draw uniformly from the distinct categories
(modelled as an oracle-chosen index into the category list; np.random.choice
of an empty list is unreachable because a cell implies a non-empty column). -/
def add_randomized_response (value : NVal) (categories : List NVal) (p : ℚ)
    (keep_draw : ℚ) (pick_draw : Nat) : NVal :=
  if keep_draw < p then value
  else categories.getD (pick_draw % categories.length) value

/-- The inverse-CDF Laplace sample with location 0: the scale multiplies a
function of the uniform draw, so scale 0 yields exactly 0. -/
noncomputable def laplace_sample (scale u : ℝ) : ℝ :=
  scale * (-(Real.sign u * Real.log (1 - 2 * |u|)))

/-- Elementwise column + Laplace noise, one oracle draw per position. -/
noncomputable def lapCells (scale : ℝ) (us : Nat → ℝ) : Nat → List ℝ → List ℝ
  | _, [] => []
  | i, x :: xs => (x + laplace_sample scale (us i)) :: lapCells scale us (i + 1) xs

/-- add_laplace_noise (privacy/helpers.py): scale = sensitivity / epsilon;
np.random.laplace raises ValueError on a negative scale, modelled as none.
Lean's division convention x / 0 = 0 differs from IEEE at epsilon = 0, so
no theorem below concerns epsilon = 0. -/
noncomputable def add_laplace_noise (column : List ℝ) (sensitivity epsilon : ℝ)
    (us : Nat → ℝ) : Option (List ℝ) :=
  let scale := sensitivity / epsilon
  if scale < 0 then none
  else some (lapCells scale us 0 column)

/-- Per-cell randomized response over a column, one oracle draw pair per
position. -/
def rrCells (categories : List NVal) (keep : Nat → ℚ) (pick : Nat → Nat) :
    Nat → List NVal → List NVal
  | _, [] => []
  | i, x :: xs =>
      add_randomized_response x categories (1 / 2) (keep i) (pick i) ::
        rrCells categories keep pick (i + 1) xs

/-- Positionally assign a column of values into a dataset
(noisy_df[column] = values); the value list always has exactly one entry
per row. -/
def setCol : NDataset → String → List NVal → NDataset
  | [], _, _ => []
  | _ :: _, _, [] => []
  | r :: rs, c, v :: vs => dictInsert r c v :: setCol rs c vs

/-- add_noise_to_df (privacy/helpers.py): Laplace-noise each numeric column
(sensitivity = max - min of the original column), then randomized-response
each categorical column, always reading from the original dataset.  The
lambda passes no p, so randomized response runs at its default p = 0.5. -/
noncomputable def add_noise_to_df (df : NDataset)
    (categorical_columns numerical_columns : List String) (epsilon : ℝ)
    (o : NoiseOracle) : Option NDataset :=
  let afterNum :=
    numerical_columns.foldl
      (fun acc column => acc.bind (fun noisy =>
        let sensitivity :=
          (optMax (numColVals df column)).getD 0 - (optMin (numColVals df column)).getD 0
        (add_laplace_noise (numColVals df column) sensitivity epsilon (o.lap_u column)).map
          (fun newcol => setCol noisy column (newcol.map NVal.num))))
      (some df)
  afterNum.map (fun noisy =>
    categorical_columns.foldl
      (fun noisy column =>
        let categories := (nColVals df column).dedup
        setCol noisy column
          (rrCells categories (o.rr_keep column) (o.rr_pick column) 0 (nColVals df column)))
      noisy)

/-- validate_column_selection (privacy/helpers.py): the selected
categorical and numerical columns together cover exactly the dataset's
columns, with no overlap. -/
def validate_column_selection (columns categorical_cols numerical_cols : List String) :
    Bool :=
  decide ((categorical_cols ++ numerical_cols).toFinset = columns.toFinset) &&
  decide (categorical_cols.toFinset ∩ numerical_cols.toFinset = ∅)

section Theorems

/-- The reasons field of a P_29_score report is the reasons field computed
by validate_privacy, in both branches. -/
lemma P_29_score_reasons (df : Dataset) (quasi_idents sens_attr : List String)
    (w_k w_l w_t : ℝ) :
    (P_29_score df quasi_idents sens_attr w_k w_l w_t).reasons =
      (validate_privacy (k_anonymity_for_sensitive_attr df quasi_idents)
        (normalized_entropy_for_sensitive_attr df quasi_idents sens_attr)
        (t_closeness_for_sensitive_attr df quasi_idents sens_attr)).reasons := by
  simp only [P_29_score]
  split <;> rfl

/-- C1: for every dataset, quasi-identifier list and sensitive-attribute
list, if the privacy evaluation finds at least one violation (any violation
reason is present), then P_29_score returns a report whose composite score
is exactly 0.0, regardless of the other metrics and of the weights. -/
theorem P_29_score_zero_of_violation (df : Dataset) (quasi_idents sens_attr : List String)
    (w_k w_l w_t : ℝ)
    (h : (P_29_score df quasi_idents sens_attr w_k w_l w_t).reasons ≠ []) :
    (P_29_score df quasi_idents sens_attr w_k w_l w_t).score = some 0 := by
  rw [P_29_score_reasons] at h
  simp only [P_29_score]
  split
  · rfl
  · next hcon => exact absurd h hcon

/-- Example dataset with a singleton equivalence class: one row. -/
def dfW1 : Dataset := [[("q", Val.vStr "a"), ("s", Val.vStr "x")]]

/-- Witness for C1: on a one-row dataset the k-anonymity check fires, the
reasons list is non-empty, and the score is forced to 0. -/
theorem P_29_score_zero_of_violation_witness :
    (P_29_score dfW1 ["q"] ["s"] (1 / 2) (1 / 4) (1 / 4)).reasons ≠ [] ∧
    (P_29_score dfW1 ["q"] ["s"] (1 / 2) (1 / 4) (1 / 4)).score = some 0 := by
  have hk : (check_k_anonymity_violations
      (k_anonymity_for_sensitive_attr dfW1 ["q"])).1 = true := by decide
  have hr : (P_29_score dfW1 ["q"] ["s"] (1 / 2) (1 / 4) (1 / 4)).reasons ≠ [] := by
    rw [P_29_score_reasons]
    simp [validate_privacy, hk]
  exact ⟨hr, P_29_score_zero_of_violation dfW1 ["q"] ["s"] (1 / 2) (1 / 4) (1 / 4) hr⟩

/-- Dataset whose sensitive column has exactly one distinct value. -/
def dfC4 : Dataset :=
  [[("q", Val.vInt 1), ("s", Val.vStr "A")],
   [("q", Val.vInt 2), ("s", Val.vStr "A")]]

/-- C4 counterexample: on a dataset whose sensitive column has exactly one
distinct value, the normalized-entropy evaluators return the empty mapping
(the column is dropped), not the value 0 for every partition, although the
partitions are non-empty. -/
theorem entropy_single_value_dropped :
    compute_numeric_normalized_entropy dfC4 ["q"] "s" = [] ∧
    compute_categorical_normalized_entropy dfC4 ["q"] "s" = [] ∧
    compute_partition_by_ids dfC4 ["q"] ≠ [] := by
  have h : (colVals dfC4 "s").dedup.length ≤ 1 ∨ dfC4.length = 0 :=
    Or.inl (by decide)
  refine ⟨?_, ?_, by decide⟩
  · simp only [compute_numeric_normalized_entropy]
    rw [if_pos h]
  · simp only [compute_categorical_normalized_entropy]
    rw [if_pos h]

/-- C4 amended: for every dataset in which a sensitive column has at most
one distinct value across the whole dataset, both normalized-entropy
evaluators return the empty mapping for that column (the column is dropped
from the entropy table), rather than assigning entropy 0 per partition. -/
theorem entropy_single_value_empty (df : Dataset) (quasi_cols : List String)
    (sensitive_col : String) (h : (colVals df sensitive_col).dedup.length ≤ 1) :
    compute_numeric_normalized_entropy df quasi_cols sensitive_col = [] ∧
    compute_categorical_normalized_entropy df quasi_cols sensitive_col = [] := by
  constructor
  · simp only [compute_numeric_normalized_entropy]
    rw [if_pos (Or.inl h)]
  · simp only [compute_categorical_normalized_entropy]
    rw [if_pos (Or.inl h)]

/-- Witness for the amended C4 at the concrete dataset. -/
theorem entropy_single_value_empty_witness :
    (colVals dfC4 "s").dedup.length ≤ 1 ∧
    compute_numeric_normalized_entropy dfC4 ["q"] "s" = [] ∧
    compute_categorical_normalized_entropy dfC4 ["q"] "s" = [] :=
  ⟨by decide, entropy_single_value_empty dfC4 ["q"] "s" (by decide)⟩

/-- Variant of sum_map_count_dedup_eq_length phrased with countP over the
decidable-equality predicate. -/
lemma sum_map_countP_dedup {α : Type} [DecidableEq α] (l : List α) :
    (l.dedup.map (fun x => l.countP (fun y => decide (y = x)))).sum = l.length :=
  List.sum_map_count_dedup_eq_length l

/-- Membership in a partition: the index is in range and the row's
quasi-identifier tuple equals the key. -/
lemma mem_partitionOfKey {df : Dataset} {quasi_cols : List String} {key : List Val}
    {i : Nat} :
    i ∈ partitionOfKey df quasi_cols key ↔
      i < df.length ∧ quasiTuple quasi_cols (df.getD i []) = key := by
  simp [partitionOfKey, List.mem_filter, List.mem_range]

/-- Reading the rows of a dataset by index yields the mapped key list. -/
lemma range_map_quasiTuple (df : Dataset) (quasi_cols : List String) :
    (List.range df.length).map (fun i => quasiTuple quasi_cols (df.getD i [])) =
      df.map (quasiTuple quasi_cols) := by
  apply List.ext_getElem
  · simp
  · intro i h1 h2
    have hi : i < df.length := by simpa using h2
    simp only [List.getElem_map, List.getElem_range]
    rw [List.getD_eq_getElem df [] hi]

/-- Every partition produced by compute_partition_by_ids is non-empty. -/
lemma compute_partition_nonempty {df : Dataset} {quasi_cols : List String}
    {g : List Nat} (hg : g ∈ compute_partition_by_ids df quasi_cols) : g ≠ [] := by
  rcases List.mem_map.1 hg with ⟨key, hkey, rfl⟩
  have hk2 : key ∈ df.map (quasiTuple quasi_cols) := (List.mem_dedup).1 hkey
  rw [← range_map_quasiTuple df quasi_cols] at hk2
  rcases List.mem_map.1 hk2 with ⟨i, hi, hti⟩
  have : i ∈ partitionOfKey df quasi_cols key :=
    mem_partitionOfKey.2 ⟨List.mem_range.1 hi, hti⟩
  exact List.ne_nil_of_mem this

/-- C6: for every dataset, the partitions produced by the Partitioner are
pairwise disjoint and cover every row index (every row lies in exactly one
partition); every partition's k-anonymity value (its size) is at least 1,
and the sum of the partition sizes equals the dataset row count. -/
theorem compute_partition_by_ids_strict_partition (df : Dataset)
    (quasi_cols : List String) :
    (compute_partition_by_ids df quasi_cols).Pairwise
      (fun p q => ∀ i, i ∈ p → i ∉ q) ∧
    (∀ i, i < df.length → ∃ p ∈ compute_partition_by_ids df quasi_cols, i ∈ p) ∧
    (∀ p ∈ compute_partition_by_ids df quasi_cols, 1 ≤ p.length) ∧
    ((compute_partition_by_ids df quasi_cols).map List.length).sum = df.length := by
  refine ⟨?_, ?_, ?_, ?_⟩
  · refine List.Pairwise.map (partitionOfKey df quasi_cols) ?_
      (List.nodup_dedup (df.map (quasiTuple quasi_cols)))
    intro a b hab i hia hib
    exact hab ((mem_partitionOfKey.1 hia).2.symm.trans (mem_partitionOfKey.1 hib).2)
  · intro i hi
    refine ⟨partitionOfKey df quasi_cols (quasiTuple quasi_cols (df.getD i [])),
      List.mem_map_of_mem _ ?_, mem_partitionOfKey.2 ⟨hi, rfl⟩⟩
    refine (List.mem_dedup).2 ?_
    rw [← range_map_quasiTuple df quasi_cols]
    exact List.mem_map_of_mem _ (List.mem_range.2 hi)
  · intro p hp
    have := compute_partition_nonempty hp
    exact Nat.one_le_iff_ne_zero.2 (fun h => this (List.eq_nil_of_length_eq_zero h))
  · have hlen : ∀ key, (partitionOfKey df quasi_cols key).length =
        (df.map (quasiTuple quasi_cols)).countP (fun y => decide (y = key)) := by
      intro key
      rw [← range_map_quasiTuple df quasi_cols]
      simp only [partitionOfKey, List.countP_map]
      rw [← List.countP_eq_length_filter]
      rfl
    simp only [compute_partition_by_ids, distinctKeys, List.map_map]
    have hmc : ((df.map (quasiTuple quasi_cols)).dedup.map
        (List.length ∘ partitionOfKey df quasi_cols)) =
        ((df.map (quasiTuple quasi_cols)).dedup.map
          (fun key => (df.map (quasiTuple quasi_cols)).countP (fun y => decide (y = key)))) :=
      List.map_congr_left (fun key _ => hlen key)
    rw [hmc, sum_map_countP_dedup, List.length_map]

/-- Witness for C6: on the concrete two-row dataset, row 0 lies in some
partition and the partition sizes sum to the row count. -/
theorem compute_partition_strict_partition_witness :
    (∃ p ∈ compute_partition_by_ids dfC4 ["q"], 0 ∈ p) ∧
    ((compute_partition_by_ids dfC4 ["q"]).map List.length).sum = dfC4.length :=
  ⟨(compute_partition_by_ids_strict_partition dfC4 ["q"]).2.1 0 (by decide),
   (compute_partition_by_ids_strict_partition dfC4 ["q"]).2.2.2⟩

/-- A successful run of the enforcement loop returns a non-empty dataset in
which every group satisfies every threshold condition. -/
lemma ensure_privacy_loop_some {quasi_identifiers sensitive_attributes : List String}
    {t_threshold : ℚ} {k_threshold : Nat} {l_threshold : ℝ} :
    ∀ fuel df d,
      ensure_privacy_loop quasi_identifiers sensitive_attributes
        t_threshold k_threshold l_threshold fuel df = some d →
      d ≠ [] ∧ ∀ key ∈ distinctKeys d quasi_identifiers,
        group_ok d quasi_identifiers sensitive_attributes
          t_threshold k_threshold l_threshold key := by
  intro fuel
  induction fuel with
  | zero =>
      intro df d h
      simp [ensure_privacy_loop] at h
  | succ fuel ih =>
      intro df d h
      rw [ensure_privacy_loop] at h
      split at h
      · exact absurd h (by simp)
      · split at h
        · next hempty hok =>
            cases h
            refine ⟨fun hnil => ?_, hok⟩
            rw [hnil] at hempty
            simp at hempty
        · exact ih _ _ h

/-- A non-empty dataset in which every group already satisfies every
threshold is returned unchanged by ensure_privacy. -/
lemma ensure_privacy_of_ok (df : Dataset) (quasi_identifiers sensitive_attributes : List String)
    (t_threshold : ℚ) (k_threshold : Nat) (l_threshold : ℝ)
    (hne : df ≠ [])
    (hok : ∀ key ∈ distinctKeys df quasi_identifiers,
      group_ok df quasi_identifiers sensitive_attributes
        t_threshold k_threshold l_threshold key) :
    ensure_privacy df quasi_identifiers sensitive_attributes
      t_threshold k_threshold l_threshold = some df := by
  show ensure_privacy_loop quasi_identifiers sensitive_attributes
      t_threshold k_threshold l_threshold (df.length + 1) df = some df
  rw [ensure_privacy_loop, if_neg (by simpa using hne), if_pos hok]

/-- C2 (amended): whenever the enforce entry point returns a dataset, that
dataset is non-empty and no remaining equivalence class violates any
threshold; and every non-empty dataset with no violating class is returned
unchanged.  (As stated the claim also covers the empty dataset, on which
the loop body raises instead of returning it: see the counterexample.) -/
theorem ensure_privacy_no_violations (df : Dataset)
    (quasi_identifiers sensitive_attributes : List String)
    (t_threshold : ℚ) (k_threshold : Nat) (l_threshold : ℝ) :
    (∀ d, ensure_privacy df quasi_identifiers sensitive_attributes
        t_threshold k_threshold l_threshold = some d →
      d ≠ [] ∧ ∀ key ∈ distinctKeys d quasi_identifiers,
        group_ok d quasi_identifiers sensitive_attributes
          t_threshold k_threshold l_threshold key) ∧
    (df ≠ [] →
      (∀ key ∈ distinctKeys df quasi_identifiers,
        group_ok df quasi_identifiers sensitive_attributes
          t_threshold k_threshold l_threshold key) →
      ensure_privacy df quasi_identifiers sensitive_attributes
        t_threshold k_threshold l_threshold = some df) :=
  ⟨fun _ h => ensure_privacy_loop_some _ _ _ h,
   fun hne hok => ensure_privacy_of_ok df _ _ _ _ _ hne hok⟩

/-- C2 counterexample: the empty dataset contains no violating equivalence
class, yet enforcement does not return it unchanged: the loop body fails
(an empty grouped frame has no k-anonymity column), modelled as none. -/
theorem ensure_privacy_empty_counterexample :
    (∀ key ∈ distinctKeys ([] : Dataset) ["q"],
      group_ok [] ["q"] ["s"] (1 / 2) 1 0 key) ∧
    ensure_privacy ([] : Dataset) ["q"] ["s"] (1 / 2) 1 0 = none := by
  constructor
  · intro key hk
    simp [distinctKeys] at hk
  · show ensure_privacy_loop ["q"] ["s"] (1 / 2) 1 0 (0 + 1) [] = none
    rw [ensure_privacy_loop]
    simp

/-- Every group of the one-row example dataset satisfies the thresholds
t = 1/2, k = 0, l = -1. -/
lemma dfW1_all_ok :
    ∀ key ∈ distinctKeys dfW1 ["q"], group_ok dfW1 ["q"] ["s"] (1 / 2) 0 (-1) key := by
  intro key hk
  have hkeys : distinctKeys dfW1 ["q"] = [[Val.vStr "a"]] := by decide
  rw [hkeys] at hk
  have hkey : key = [Val.vStr "a"] := by simpa using hk
  subst hkey
  refine ⟨by decide, ?_, ?_⟩
  · intro s hs
    have hs' : s = "s" := by simpa using hs
    subst hs'
    have hzero : calculate_normalized_entropy
        (colVals (groupRows dfW1 ["q"] [Val.vStr "a"]) "s") = 0 := by
      have hcol : colVals (groupRows dfW1 ["q"] [Val.vStr "a"]) "s" = [Val.vStr "x"] := by
        decide
      rw [hcol]
      simp [calculate_normalized_entropy]
    rw [hzero]
    norm_num
  · intro s hs
    have hs' : s = "s" := by simpa using hs
    subst hs'
    have hcol : colVals (groupRows dfW1 ["q"] [Val.vStr "a"]) "s" = [Val.vStr "x"] := by
      decide
    have hcol2 : colVals dfW1 "s" = [Val.vStr "x"] := by decide
    rw [hcol, hcol2]
    norm_num [t_closeness_of, probOf, List.dedup]

/-- The one-row example dataset is a fixed point of enforcement. -/
lemma ensure_privacy_dfW1 :
    ensure_privacy dfW1 ["q"] ["s"] (1 / 2) 0 (-1) = some dfW1 :=
  ensure_privacy_of_ok dfW1 ["q"] ["s"] (1 / 2) 0 (-1) (by decide) dfW1_all_ok

/-- Witness for C2: a concrete non-empty dataset with no violating class is
returned unchanged. -/
theorem ensure_privacy_no_violations_witness :
    dfW1 ≠ [] ∧ ensure_privacy dfW1 ["q"] ["s"] (1 / 2) 0 (-1) = some dfW1 :=
  ⟨by decide,
   (ensure_privacy_no_violations dfW1 ["q"] ["s"] (1 / 2) 0 (-1)).2 (by decide) dfW1_all_ok⟩

/-- C3 (amended): enforcement is idempotent whenever it returns: applying
it to its own output returns that output unchanged; and every non-empty
dataset with no violating class is a fixed point.  (As stated the claim
also makes the empty no-violation dataset a fixed point, which fails: see
the counterexample.) -/
theorem ensure_privacy_idempotent (df : Dataset)
    (quasi_identifiers sensitive_attributes : List String)
    (t_threshold : ℚ) (k_threshold : Nat) (l_threshold : ℝ) :
    (∀ d, ensure_privacy df quasi_identifiers sensitive_attributes
        t_threshold k_threshold l_threshold = some d →
      ensure_privacy d quasi_identifiers sensitive_attributes
        t_threshold k_threshold l_threshold = some d) ∧
    (df ≠ [] →
      (∀ key ∈ distinctKeys df quasi_identifiers,
        group_ok df quasi_identifiers sensitive_attributes
          t_threshold k_threshold l_threshold key) →
      ensure_privacy df quasi_identifiers sensitive_attributes
        t_threshold k_threshold l_threshold = some df) := by
  constructor
  · intro d h
    obtain ⟨hne, hok⟩ := ensure_privacy_loop_some _ _ _ h
    exact ensure_privacy_of_ok d _ _ _ _ _ hne hok
  · exact fun hne hok => ensure_privacy_of_ok df _ _ _ _ _ hne hok

/-- C3 counterexample: the empty dataset has no violating equivalence class
but is not a fixed point of enforcement (the loop body fails on it). -/
theorem ensure_privacy_empty_not_fixed_point :
    (∀ key ∈ distinctKeys ([] : Dataset) ["q"],
      group_ok [] ["q"] ["s"] (1 / 2) 0 0 key) ∧
    ensure_privacy ([] : Dataset) ["q"] ["s"] (1 / 2) 0 0 ≠ some [] := by
  constructor
  · intro key hk
    simp [distinctKeys] at hk
  · show ensure_privacy_loop ["q"] ["s"] (1 / 2) 0 0 (0 + 1) [] ≠ some []
    rw [ensure_privacy_loop]
    simp

/-- Witness for C3: idempotence applied at the concrete fixed point. -/
theorem ensure_privacy_idempotent_witness :
    ensure_privacy dfW1 ["q"] ["s"] (1 / 2) 0 (-1) = some dfW1 :=
  (ensure_privacy_idempotent dfW1 ["q"] ["s"] (1 / 2) 0 (-1)).1 dfW1 ensure_privacy_dfW1

/-- Membership after a dict insertion: either an untouched original pair
or a pair carrying the inserted value. -/
lemma mem_dictInsert {A : Type} {d : List (String × A)} {k : String} {v : A}
    {p : String × A} (hp : p ∈ dictInsert d k v) : p ∈ d ∨ p.2 = v := by
  unfold dictInsert at hp
  split at hp
  · rcases List.mem_map.1 hp with ⟨q, hq, hqe⟩
    split at hqe
    · right; rw [← hqe]
    · left; rwa [← hqe]
  · rcases List.mem_append.1 hp with h | h
    · exact Or.inl h
    · right
      have hpe : p = (k, v) := by simpa using h
      rw [hpe]

/-- A fold building an association list satisfies a value predicate as soon
as the seed and every step do. -/
lemma foldl_pairs_pred {α A : Type} (P : A → Prop)
    (step : List (String × A) → α → List (String × A)) :
    ∀ (gs : List α) (d0 : List (String × A)),
      (∀ d g, g ∈ gs → ∀ p ∈ step d g, p ∈ d ∨ P p.2) →
      (∀ p ∈ d0, P p.2) → ∀ p ∈ gs.foldl step d0, P p.2 := by
  intro gs
  induction gs with
  | nil =>
      intro d0 _ h0 p hp
      exact h0 p hp
  | cons g gs ih =>
      intro d0 hstep h0 p hp
      rw [List.foldl_cons] at hp
      refine ih (step d0 g) (fun d g' hg' => hstep d g' (List.mem_cons_of_mem _ hg')) ?_ p hp
      intro q hq
      rcases hstep d0 g (List.mem_cons_self _ _) q hq with h | h
      · exact h0 q h
      · exact h

/-- Relative frequencies are non-negative. -/
lemma probOf_nonneg (vs : List Val) (v : Val) : 0 ≤ probOf vs v := by
  unfold probOf
  positivity

/-- Relative frequencies are at most one. -/
lemma probOf_le_one (vs : List Val) (v : Val) : probOf vs v ≤ 1 := by
  unfold probOf
  exact div_le_one_of_le₀ (by exact_mod_cast List.count_le_length v vs) (by positivity)

/-- A value occurring in the list has positive relative frequency. -/
lemma probOf_pos {vs : List Val} {v : Val} (hv : v ∈ vs) : 0 < probOf vs v := by
  unfold probOf
  have h1 : 0 < vs.length := List.length_pos_of_mem hv
  have h2 : 0 < vs.count v := List.count_pos_iff.2 hv
  exact div_pos (by exact_mod_cast h2) (by exact_mod_cast h1)

/-- Counting the occurrences of every distinct value of a superset support
recovers the list's length. -/
lemma sum_count_dedup_superset {loc S : List Val} (hsub : ∀ x ∈ loc, x ∈ S) :
    ((S.dedup).map (fun v => loc.count v)).sum = loc.length := by
  rw [← List.sum_toFinset _ (List.nodup_dedup S)]
  have hTF : S.dedup.toFinset = S.toFinset := by
    ext a
    simp [List.mem_toFinset, List.mem_dedup]
  rw [hTF, ← List.sum_toFinset_count_eq_length loc]
  refine (Finset.sum_subset ?_ ?_).symm
  · intro a ha
    rw [List.mem_toFinset] at *
    exact hsub a ha
  · intro a _ ha
    rw [List.mem_toFinset] at ha
    exact List.count_eq_zero.2 ha

/-- Sum of relative frequencies rewritten as a sum of counts over the
length. -/
lemma sum_probOf_eq_sum_count_div (loc S : List Val) :
    ((S.dedup).map (fun v => probOf loc v)).sum =
      ((((S.dedup).map (fun v => loc.count v)).sum : ℕ) : ℚ) / (loc.length : ℚ) := by
  unfold probOf
  rw [Nat.cast_list_sum, List.map_map]
  simp only [div_eq_mul_inv]
  rw [List.sum_map_mul_right]
  rfl

/-- The distribution of a non-empty list over a superset support sums to
one. -/
lemma sum_probOf_dedup_eq_one {loc S : List Val} (hsub : ∀ x ∈ loc, x ∈ S)
    (hne : loc ≠ []) :
    ((S.dedup).map (fun v => probOf loc v)).sum = 1 := by
  rw [sum_probOf_eq_sum_count_div, sum_count_dedup_superset hsub]
  have hl : (loc.length : ℚ) ≠ 0 := by
    exact_mod_cast (Nat.pos_of_ne_zero (fun h => hne (List.length_eq_zero.1 h))).ne'
  rw [div_self hl]

/-- The local distribution reindexed onto a superset support sums to at
most one (exactly one when the list is non-empty, zero when it is empty). -/
lemma sum_probOf_dedup_le_one {loc S : List Val} (hsub : ∀ x ∈ loc, x ∈ S) :
    ((S.dedup).map (fun v => probOf loc v)).sum ≤ 1 := by
  rcases eq_or_ne loc [] with rfl | hne
  · have hz : ∀ x ∈ (S.dedup).map (fun v => probOf [] v), x = 0 := by
      intro x hx
      rcases List.mem_map.1 hx with ⟨v, _, rfl⟩
      simp [probOf]
    rw [List.sum_eq_zero hz]
    norm_num
  · rw [sum_probOf_dedup_eq_one hsub hne]

/-- The total-variation distance between a local distribution (supported
inside the global support) and the global distribution lies in [0, 1]. -/
lemma t_closeness_of_bounds (glob loc : List Val) (hsub : ∀ x ∈ loc, x ∈ glob) :
    0 ≤ t_closeness_of glob loc ∧ t_closeness_of glob loc ≤ 1 := by
  constructor
  · unfold t_closeness_of
    have hs : 0 ≤ ((glob.dedup).map (fun v => |probOf loc v - probOf glob v|)).sum := by
      apply List.sum_nonneg
      intro x hx
      rcases List.mem_map.1 hx with ⟨v, _, rfl⟩
      exact abs_nonneg _
    linarith
  · rcases eq_or_ne glob [] with rfl | hg
    · unfold t_closeness_of
      simp
    · unfold t_closeness_of
      have h1 : ((glob.dedup).map (fun v => |probOf loc v - probOf glob v|)).sum ≤
          ((glob.dedup).map (fun v => probOf loc v + probOf glob v)).sum := by
        apply List.sum_le_sum
        intro v _
        calc |probOf loc v - probOf glob v|
            ≤ |probOf loc v| + |probOf glob v| := by
              rw [sub_eq_add_neg]
              exact (abs_add _ _).trans (by rw [abs_neg])
          _ = probOf loc v + probOf glob v := by
              rw [abs_of_nonneg (probOf_nonneg loc v), abs_of_nonneg (probOf_nonneg glob v)]
      have h2 : ((glob.dedup).map (fun v => probOf loc v + probOf glob v)).sum =
          ((glob.dedup).map (fun v => probOf loc v)).sum +
          ((glob.dedup).map (fun v => probOf glob v)).sum := by
        rw [← List.sum_map_add]
      have h3 : ((glob.dedup).map (fun v => probOf loc v)).sum ≤ 1 :=
        sum_probOf_dedup_le_one hsub
      have h4 : ((glob.dedup).map (fun v => probOf glob v)).sum = 1 :=
        sum_probOf_dedup_eq_one (fun x hx => hx) hg
      have : ((glob.dedup).map (fun v => |probOf loc v - probOf glob v|)).sum ≤ 2 := by
        rw [h2, h4] at h1
        linarith
      linarith

/-- When the local distribution equals the global one on every value, the
total-variation distance is zero. -/
lemma t_closeness_of_eq_zero (glob loc : List Val)
    (h : ∀ v, probOf loc v = probOf glob v) : t_closeness_of glob loc = 0 := by
  unfold t_closeness_of
  have hz : ∀ x ∈ (glob.dedup).map (fun v => |probOf loc v - probOf glob v|), x = 0 := by
    intro x hx
    rcases List.mem_map.1 hx with ⟨v, _, rfl⟩
    rw [h v]
    simp
  rw [List.sum_eq_zero hz]
  ring

/-- Negating every element of a list negates its sum. -/
lemma list_map_neg_sum (l : List ℝ) : (l.map (fun x => -x)).sum = -(l.sum) := by
  induction l with
  | nil => simp
  | cons a t ih => simp [ih]; ring

/-- Shannon entropy is non-negative: every term -p * log2 p with
p in (0, 1] is non-negative. -/
lemma entropyOf_nonneg (vs : List Val) : 0 ≤ entropyOf vs := by
  have h : 0 ≤ (((vs.dedup).map
      (fun v => (probOf vs v : ℝ) * Real.logb 2 (probOf vs v))).map (fun x => -x)).sum := by
    apply List.sum_nonneg
    intro x hx
    rcases List.mem_map.1 hx with ⟨y, hy, rfl⟩
    rcases List.mem_map.1 hy with ⟨v, _, rfl⟩
    have hp0 : (0 : ℝ) ≤ ((probOf vs v : ℚ) : ℝ) := by exact_mod_cast probOf_nonneg vs v
    have hp1 : ((probOf vs v : ℚ) : ℝ) ≤ 1 := by exact_mod_cast probOf_le_one vs v
    have hlog : Real.logb 2 ((probOf vs v : ℚ) : ℝ) ≤ 0 :=
      Real.logb_nonpos (by norm_num) hp0 hp1
    exact neg_nonneg.2 (mul_nonpos_of_nonneg_of_nonpos hp0 hlog)
  rw [list_map_neg_sum] at h
  exact h

/-- Casting a sum of rationals to the reals distributes over the list. -/
lemma list_sum_ratCast (l : List ℚ) :
    ((l.sum : ℚ) : ℝ) = (l.map (fun q : ℚ => (q : ℝ))).sum := by
  induction l with
  | nil => simp
  | cons a t ih => simp [ih]

/-- Maximum-entropy bound (Jensen, via concavity of the logarithm): the
entropy of a non-empty list is at most log2 of its number of distinct
values. -/
lemma entropyOf_le_logb (vs : List Val) (h : vs ≠ []) :
    entropyOf vs ≤ Real.logb 2 (vs.dedup.length) := by
  set w : Val → ℝ := fun v => ((probOf vs v : ℚ) : ℝ) with hw
  have hwpos : ∀ v ∈ vs.toFinset, 0 < w v := by
    intro v hv
    show (0 : ℝ) < ((probOf vs v : ℚ) : ℝ)
    exact_mod_cast probOf_pos (List.mem_toFinset.1 hv)
  have hTF : vs.dedup.toFinset = vs.toFinset := by
    ext a
    simp [List.mem_toFinset, List.mem_dedup]
  have hr : ((vs.dedup).map w).sum = (1 : ℝ) := by
    have hq := @sum_probOf_dedup_eq_one vs vs (fun x hx => hx) h
    calc ((vs.dedup).map w).sum
        = ((vs.dedup.map (fun v => probOf vs v)).map (fun q : ℚ => (q : ℝ))).sum := by
          rw [List.map_map]
          rfl
      _ = (((vs.dedup.map (fun v => probOf vs v)).sum : ℚ) : ℝ) := (list_sum_ratCast _).symm
      _ = 1 := by rw [hq]; norm_num
  have hsum1 : ∑ v in vs.toFinset, w v = 1 := by
    rw [← hTF, List.sum_toFinset _ (List.nodup_dedup vs)]
    exact hr
  have hent : entropyOf vs = ∑ v in vs.toFinset, w v * Real.logb 2 (w v)⁻¹ := by
    unfold entropyOf
    rw [← List.sum_toFinset _ (List.nodup_dedup vs), hTF]
    rw [← Finset.sum_neg_distrib]
    apply Finset.sum_congr rfl
    intro v _
    rw [Real.logb_inv]
    ring
  have hconc : ConcaveOn ℝ (Set.Ioi 0) Real.log := strictConcaveOn_log_Ioi.concaveOn
  have hJ : ∑ v in vs.toFinset, w v • Real.log ((w v)⁻¹) ≤
      Real.log (∑ v in vs.toFinset, w v • (w v)⁻¹) := by
    refine hconc.le_map_sum (fun v hv => (hwpos v hv).le) hsum1 ?_
    intro v hv
    exact Set.mem_Ioi.2 (inv_pos.2 (hwpos v hv))
  simp only [smul_eq_mul] at hJ
  have hcard : ∑ v in vs.toFinset, w v * (w v)⁻¹ = (vs.toFinset.card : ℝ) := by
    have h1 : ∀ v ∈ vs.toFinset, w v * (w v)⁻¹ = (1 : ℝ) := by
      intro v hv
      rw [mul_inv_cancel₀ (hwpos v hv).ne']
    rw [Finset.sum_congr rfl h1, Finset.sum_const, nsmul_eq_mul, mul_one]
  rw [hcard] at hJ
  have hlog2 : (0 : ℝ) < Real.log 2 := Real.log_pos (by norm_num)
  have hfin : entropyOf vs = (∑ v in vs.toFinset, w v * Real.log ((w v)⁻¹)) / Real.log 2 := by
    rw [hent]
    rw [Finset.sum_div]
    apply Finset.sum_congr rfl
    intro v _
    rw [Real.logb, mul_div_assoc]
  rw [hfin]
  calc (∑ v in vs.toFinset, w v * Real.log ((w v)⁻¹)) / Real.log 2
      ≤ Real.log (vs.toFinset.card) / Real.log 2 := by gcongr
    _ = Real.logb 2 (vs.toFinset.card) := by rw [Real.logb]
    _ = Real.logb 2 (vs.dedup.length) := by rw [List.card_toFinset]

/-- The values of a sensitive column restricted to a partition all occur in
the full column. -/
lemma subsetVals_subset {df : Dataset} {quasi_cols : List String} {c : String}
    {g : List Nat} (hg : g ∈ compute_partition_by_ids df quasi_cols) :
    ∀ x ∈ subsetVals df c g, x ∈ colVals df c := by
  intro x hx
  rcases List.mem_map.1 hx with ⟨i, hi, rfl⟩
  rcases List.mem_map.1 hg with ⟨key, _, rfl⟩
  have hmem := mem_partitionOfKey.1 hi
  rw [List.getD_eq_getElem df [] hmem.1]
  exact List.mem_map_of_mem _ (List.getElem_mem hmem.1)

/-- Deduplicated length is monotone under list inclusion. -/
lemma dedup_length_le_of_subset {l l' : List Val} (h : ∀ x ∈ l, x ∈ l') :
    l.dedup.length ≤ l'.dedup.length := by
  rw [← List.card_toFinset, ← List.card_toFinset]
  apply Finset.card_le_card
  intro a ha
  rw [List.mem_toFinset] at *
  exact h a ha

/-- A non-empty list has a non-empty deduplication. -/
lemma dedup_length_pos {l : List Val} (h : l ≠ []) : 0 < l.dedup.length := by
  rcases List.exists_mem_of_ne_nil l h with ⟨x, hx⟩
  exact List.length_pos_of_mem ((List.mem_dedup).2 hx)

/-- Every cell of the categorical t-closeness table lies in [0, 1]. -/
lemma t_closeness_cell_bounds (df : Dataset) (quasi_cols : List String)
    (sensitive_col : String) :
    ∀ p ∈ compute_categorical_t_closeness df quasi_cols sensitive_col,
      0 ≤ p.2 ∧ p.2 ≤ 1 := by
  intro p hp
  unfold compute_categorical_t_closeness at hp
  refine foldl_pairs_pred (fun x => 0 ≤ x ∧ x ≤ 1) _ _ _ ?_ (by simp) p hp
  intro d g hg q hq
  split at hq
  · exact Or.inl hq
  · rcases mem_dictInsert hq with h | h
    · exact Or.inl h
    · right
      rw [h]
      exact t_closeness_of_bounds _ _ (subsetVals_subset hg)

/-- Every cell of the numeric normalized-entropy table lies in [0, 1]. -/
lemma normalized_entropy_cell_bounds (df : Dataset) (quasi_cols : List String)
    (sensitive_col : String) :
    ∀ p ∈ compute_numeric_normalized_entropy df quasi_cols sensitive_col,
      0 ≤ p.2 ∧ p.2 ≤ 1 := by
  intro p hp
  simp only [compute_numeric_normalized_entropy] at hp
  split at hp
  · simp at hp
  · next hguard =>
      push_neg at hguard
      have hm : 2 ≤ (colVals df sensitive_col).dedup.length := hguard.1
      have hm1 : (1 : ℝ) < ((colVals df sensitive_col).dedup.length : ℕ) := by
        exact_mod_cast hm
      have hlogm : 0 < Real.logb 2 (((colVals df sensitive_col).dedup.length : ℕ) : ℝ) :=
        Real.logb_pos (by norm_num) hm1
      refine foldl_pairs_pred (fun x => 0 ≤ x ∧ x ≤ 1) _ _ _ ?_ (by simp) p hp
      intro d g hg q hq
      split at hq
      · exact Or.inl hq
      · next hne =>
          rcases mem_dictInsert hq with h | h
          · exact Or.inl h
          · right
            rw [h]
            have hsubne : subsetVals df sensitive_col g ≠ [] := by
              simpa [List.isEmpty_iff] using hne
            constructor
            · exact div_nonneg (entropyOf_nonneg _) hlogm.le
            · rw [div_le_one hlogm]
              calc entropyOf (subsetVals df sensitive_col g)
                  ≤ Real.logb 2 ((subsetVals df sensitive_col g).dedup.length) :=
                    entropyOf_le_logb _ hsubne
                _ ≤ Real.logb 2 (((colVals df sensitive_col).dedup.length : ℕ) : ℝ) := by
                    apply Real.logb_le_logb_of_le (by norm_num)
                    · exact_mod_cast dedup_length_pos hsubne
                    · exact_mod_cast dedup_length_le_of_subset (subsetVals_subset hg)

/-- C7: for every dataset, partition and sensitive column, the t-closeness
values and the normalized-entropy values computed by the evaluators lie in
[0, 1], and the t-closeness is 0 whenever the partition's local value
distribution exactly equals the dataset-wide global distribution. -/
theorem metric_values_in_unit_interval (df : Dataset) (quasi_cols : List String)
    (sensitive_col : String) :
    (∀ p ∈ compute_categorical_t_closeness df quasi_cols sensitive_col,
      0 ≤ p.2 ∧ p.2 ≤ 1) ∧
    (∀ p ∈ compute_numeric_normalized_entropy df quasi_cols sensitive_col,
      0 ≤ p.2 ∧ p.2 ≤ 1) ∧
    (∀ glob loc : List Val, (∀ v, probOf loc v = probOf glob v) →
      t_closeness_of glob loc = 0) :=
  ⟨t_closeness_cell_bounds df quasi_cols sensitive_col,
   normalized_entropy_cell_bounds df quasi_cols sensitive_col,
   fun glob loc h => t_closeness_of_eq_zero glob loc h⟩

/-- Two-row dataset with one equivalence class and a numeric sensitive
column holding two distinct values. -/
def dfW7 : Dataset :=
  [[("q", Val.vStr "g"), ("s", Val.vInt 1)],
   [("q", Val.vStr "g"), ("s", Val.vInt 2)]]

/-- Witness for C7: concrete cells of the t-closeness and entropy tables
are within [0, 1], and a distribution equal to itself has t-closeness 0. -/
theorem metric_values_in_unit_interval_witness :
    (0 ≤ t_closeness_of (colVals dfW1 "s") (subsetVals dfW1 "s" [0]) ∧
      t_closeness_of (colVals dfW1 "s") (subsetVals dfW1 "s" [0]) ≤ 1) ∧
    (0 ≤ entropyOf (subsetVals dfW7 "s" [0, 1]) /
        Real.logb 2 (((colVals dfW7 "s").dedup.length : ℕ) : ℝ) ∧
      entropyOf (subsetVals dfW7 "s" [0, 1]) /
        Real.logb 2 (((colVals dfW7 "s").dedup.length : ℕ) : ℝ) ≤ 1) ∧
    t_closeness_of [Val.vStr "x"] [Val.vStr "x"] = 0 := by
  have hpart1 : compute_partition_by_ids dfW1 ["q"] = [[0]] := by decide
  have hpart7 : compute_partition_by_ids dfW7 ["q"] = [[0, 1]] := by decide
  have hmemT : (get_group_key_from_partition dfW1 [0] ["q"],
      t_closeness_of (colVals dfW1 "s") (subsetVals dfW1 "s" [0])) ∈
      compute_categorical_t_closeness dfW1 ["q"] "s" := by
    unfold compute_categorical_t_closeness
    rw [hpart1]
    simp only [List.foldl_cons, List.foldl_nil]
    rw [if_neg (by decide)]
    rw [show dictInsert ([] : List (String × ℚ))
        (get_group_key_from_partition dfW1 [0] ["q"])
        (t_closeness_of (colVals dfW1 "s") (subsetVals dfW1 "s" [0])) =
        [(get_group_key_from_partition dfW1 [0] ["q"],
          t_closeness_of (colVals dfW1 "s") (subsetVals dfW1 "s" [0]))] from rfl]
    exact List.mem_singleton.2 rfl
  have hmemE : (get_group_key_from_partition dfW7 [0, 1] ["q"],
      entropyOf (subsetVals dfW7 "s" [0, 1]) /
        Real.logb 2 (((colVals dfW7 "s").dedup.length : ℕ) : ℝ)) ∈
      compute_numeric_normalized_entropy dfW7 ["q"] "s" := by
    simp only [compute_numeric_normalized_entropy]
    rw [if_neg (by decide)]
    rw [hpart7]
    simp only [List.foldl_cons, List.foldl_nil]
    rw [if_neg (by decide)]
    rw [show dictInsert ([] : List (String × ℝ))
        (get_group_key_from_partition dfW7 [0, 1] ["q"])
        (entropyOf (subsetVals dfW7 "s" [0, 1]) /
          Real.logb 2 (((colVals dfW7 "s").dedup.length : ℕ) : ℝ)) =
        [(get_group_key_from_partition dfW7 [0, 1] ["q"],
          entropyOf (subsetVals dfW7 "s" [0, 1]) /
            Real.logb 2 (((colVals dfW7 "s").dedup.length : ℕ) : ℝ))] from rfl]
    exact List.mem_singleton.2 rfl
  exact ⟨(metric_values_in_unit_interval dfW1 ["q"] "s").1 _ hmemT,
         (metric_values_in_unit_interval dfW7 ["q"] "s").2.1 _ hmemE,
         (metric_values_in_unit_interval dfW1 ["q"] "s").2.2 _ _ (fun _ => rfl)⟩

/-- The problematic_info field of a P_29_score report is the one computed
by validate_privacy, in both branches. -/
lemma P_29_score_problematic_info (df : Dataset) (quasi_idents sens_attr : List String)
    (w_k w_l w_t : ℝ) :
    (P_29_score df quasi_idents sens_attr w_k w_l w_t).problematic_info =
      (validate_privacy (k_anonymity_for_sensitive_attr df quasi_idents)
        (normalized_entropy_for_sensitive_attr df quasi_idents sens_attr)
        (t_closeness_for_sensitive_attr df quasi_idents sens_attr)).problematic_info := by
  simp only [P_29_score]
  split <;> rfl

/-- The violation list of the l-diversity check, unfolded. -/
lemma check_l_diversity_violations_snd (l_df : Frame ℝ) :
    (check_l_diversity_violations l_df).2 =
      if ∃ col ∈ l_df.drop 1, ∃ cell ∈ col.2, cell.2 = 0 then
        (l_df.drop 1).flatMap (fun col =>
          (col.2.filter (fun cell => decide (cell.2 = 0))).map
            (fun cell => (cell.1, "normalized entropy l-value is 0 for " ++ col.1)))
      else [] := rfl

/-- The problematic_info of validate_privacy, unfolded into the three
checks. -/
lemma validate_privacy_problematic_info (k_df : List (String × Nat)) (l_df : Frame ℝ)
    (t_df : Frame ℚ) :
    (validate_privacy k_df l_df t_df).problematic_info =
      (check_k_anonymity_violations k_df).2 ++ (check_l_diversity_violations l_df).2 ++
      (check_t_closeness_violations t_df (1 / 2)).2.1 := by
  unfold validate_privacy
  rfl

/-- The reasons of validate_privacy, unfolded into the three checks. -/
lemma validate_privacy_reasons (k_df : List (String × Nat)) (l_df : Frame ℝ)
    (t_df : Frame ℚ) :
    (validate_privacy k_df l_df t_df).reasons =
      (if (check_k_anonymity_violations k_df).1 then ["k-anonymity is 1"] else []) ++
      (if (check_l_diversity_violations l_df).1 then
        ["normalized entropy l-value is 0 for some attribute"] else []) ++
      (if (check_t_closeness_violations t_df (1 / 2)).1 then
        ["t-value exceeds 0.5 for some attribute"] else []) := by
  unfold validate_privacy
  rfl

/-- C5 (amended): an l-diversity violation is reported only for sensitive
columns other than the first: if a column at position two or later of the
entropy table has a zero cell for some group key, evaluate reports the
violation pair for that (group key, column) and flags an l-diversity
problem.  (The first column of the table is skipped by iloc[:, 1:]: see
the counterexample.) -/
theorem l_violation_reported_for_later_columns (df : Dataset)
    (quasi_idents sens_attr : List String) (w_k w_l w_t : ℝ)
    (col : String × List (String × ℝ)) (key : String) (x : ℝ)
    (hcol : col ∈ (normalized_entropy_for_sensitive_attr df quasi_idents sens_attr).drop 1)
    (hcell : (key, x) ∈ col.2) (hx : x = 0) :
    (key, "normalized entropy l-value is 0 for " ++ col.1) ∈
      (P_29_score df quasi_idents sens_attr w_k w_l w_t).problematic_info ∧
    "normalized entropy l-value is 0 for some attribute" ∈
      (P_29_score df quasi_idents sens_attr w_k w_l w_t).reasons := by
  have hissue : ∃ c ∈ (normalized_entropy_for_sensitive_attr df quasi_idents sens_attr).drop 1,
      ∃ cell ∈ c.2, cell.2 = 0 :=
    ⟨col, hcol, (key, x), hcell, hx⟩
  have hviol : (key, "normalized entropy l-value is 0 for " ++ col.1) ∈
      (check_l_diversity_violations
        (normalized_entropy_for_sensitive_attr df quasi_idents sens_attr)).2 := by
    rw [check_l_diversity_violations_snd, if_pos hissue]
    refine List.mem_flatMap.2 ⟨col, hcol, ?_⟩
    refine List.mem_map.2 ⟨(key, x), ?_, rfl⟩
    refine List.mem_filter.2 ⟨hcell, ?_⟩
    exact decide_eq_true hx
  constructor
  · rw [P_29_score_problematic_info, validate_privacy_problematic_info]
    exact List.mem_append_left _ (List.mem_append_right _ hviol)
  · rw [P_29_score_reasons, validate_privacy_reasons,
      if_pos (show (check_l_diversity_violations
        (normalized_entropy_for_sensitive_attr df quasi_idents sens_attr)).1 from hissue)]
    exact List.mem_append_left _
      (List.mem_append_right _ (List.mem_singleton.2 rfl))

/-- Four-row dataset with one sensitive column "s": both classes are
homogeneous on it, so each class has normalized entropy 0. -/
def dfC5 : Dataset :=
  [[("q", Val.vInt 1), ("s", Val.vStr "A")],
   [("q", Val.vInt 1), ("s", Val.vStr "A")],
   [("q", Val.vInt 2), ("s", Val.vStr "B")],
   [("q", Val.vInt 2), ("s", Val.vStr "B")]]

/-- The entropy of a two-element constant list is zero. -/
lemma entropy_const_pair_zero (v : Val) : entropyOf [v, v] = 0 := by
  have hd : ([v, v]).dedup = [v] := by
    simp [List.dedup_cons_of_mem]
  have hp : probOf [v, v] v = 1 := by
    unfold probOf
    simp [List.count_cons]
  unfold entropyOf
  rw [hd]
  simp [hp]

/-- The t-closeness of the first class of dfC5 is exactly 1/2. -/
lemma t_dfC5_left : t_closeness_of (colVals dfC5 "s") (subsetVals dfC5 "s" [0, 1]) = 1 / 2 := by
  have h1 : probOf [Val.vStr "A", Val.vStr "A"] (Val.vStr "A") = 1 := by
    unfold probOf
    simp [List.count_cons]
  have h2 : probOf [Val.vStr "A", Val.vStr "A"] (Val.vStr "B") = 0 := by
    unfold probOf
    simp [List.count_cons]
  have h3 : probOf [Val.vStr "A", Val.vStr "A", Val.vStr "B", Val.vStr "B"] (Val.vStr "A") = 1 / 2 := by
    unfold probOf
    simp [List.count_cons]
    norm_num
  have h4 : probOf [Val.vStr "A", Val.vStr "A", Val.vStr "B", Val.vStr "B"] (Val.vStr "B") = 1 / 2 := by
    unfold probOf
    simp [List.count_cons]
    norm_num
  have ha : |(1 : ℚ) - 1 / 2| = 1 / 2 := by
    rw [abs_of_nonneg (by norm_num)]
    norm_num
  have hb : |(0 : ℚ) - 1 / 2| = 1 / 2 := by
    rw [abs_of_nonpos (by norm_num)]
    norm_num
  rw [show colVals dfC5 "s" =
      [Val.vStr "A", Val.vStr "A", Val.vStr "B", Val.vStr "B"] from by decide]
  rw [show subsetVals dfC5 "s" [0, 1] = [Val.vStr "A", Val.vStr "A"] from by decide]
  unfold t_closeness_of
  rw [show ([Val.vStr "A", Val.vStr "A", Val.vStr "B", Val.vStr "B"]).dedup =
      [Val.vStr "A", Val.vStr "B"] from by decide]
  simp only [List.map_cons, List.map_nil, List.sum_cons, List.sum_nil, h1, h2, h3, h4]
  rw [ha, hb]
  norm_num

/-- The t-closeness of the second class of dfC5 is exactly 1/2. -/
lemma t_dfC5_right : t_closeness_of (colVals dfC5 "s") (subsetVals dfC5 "s" [2, 3]) = 1 / 2 := by
  have h1 : probOf [Val.vStr "B", Val.vStr "B"] (Val.vStr "A") = 0 := by
    unfold probOf
    simp [List.count_cons]
  have h2 : probOf [Val.vStr "B", Val.vStr "B"] (Val.vStr "B") = 1 := by
    unfold probOf
    simp [List.count_cons]
  have h3 : probOf [Val.vStr "A", Val.vStr "A", Val.vStr "B", Val.vStr "B"] (Val.vStr "A") = 1 / 2 := by
    unfold probOf
    simp [List.count_cons]
    norm_num
  have h4 : probOf [Val.vStr "A", Val.vStr "A", Val.vStr "B", Val.vStr "B"] (Val.vStr "B") = 1 / 2 := by
    unfold probOf
    simp [List.count_cons]
    norm_num
  have ha : |(0 : ℚ) - 1 / 2| = 1 / 2 := by
    rw [abs_of_nonpos (by norm_num)]
    norm_num
  have hb : |(1 : ℚ) - 1 / 2| = 1 / 2 := by
    rw [abs_of_nonneg (by norm_num)]
    norm_num
  rw [show colVals dfC5 "s" =
      [Val.vStr "A", Val.vStr "A", Val.vStr "B", Val.vStr "B"] from by decide]
  rw [show subsetVals dfC5 "s" [2, 3] = [Val.vStr "B", Val.vStr "B"] from by decide]
  unfold t_closeness_of
  rw [show ([Val.vStr "A", Val.vStr "A", Val.vStr "B", Val.vStr "B"]).dedup =
      [Val.vStr "A", Val.vStr "B"] from by decide]
  simp only [List.map_cons, List.map_nil, List.sum_cons, List.sum_nil, h1, h2, h3, h4]
  rw [ha, hb]
  norm_num

/-- The t-closeness frame of dfC5, fully evaluated. -/
lemma htframe5 : t_closeness_for_sensitive_attr dfC5 ["q"] ["s"] =
    [("s", [("q: 1", (1 / 2 : ℚ)), ("q: 2", (1 / 2 : ℚ))])] := by
  rw [show t_closeness_for_sensitive_attr dfC5 ["q"] ["s"] =
      [("s", [("q: 1", t_closeness_of (colVals dfC5 "s") (subsetVals dfC5 "s" [0, 1])),
              ("q: 2", t_closeness_of (colVals dfC5 "s") (subsetVals dfC5 "s" [2, 3]))])] from rfl]
  rw [t_dfC5_left, t_dfC5_right]

/-- The t-closeness check, unfolded. -/
lemma check_t_closeness_violations_eq (t_df : Frame ℚ) (threshold : ℚ) :
    check_t_closeness_violations t_df threshold =
      if t_df.any (fun col => col.2.any (fun cell => threshold < cell.2)) then
        (true,
         t_df.flatMap (fun col =>
           (col.2.filter (fun cell => threshold < cell.2)).map
             (fun cell =>
               (cell.1, "t-value exceeds " ++ toString threshold ++ " for " ++ col.1))),
         t_df)
      else (false, [], t_df) := rfl

/-- The t-closeness check on dfC5 reports no violation: both t values
equal the threshold 0.5 and the comparison is strict. -/
lemma hT5 : check_t_closeness_violations
    (t_closeness_for_sensitive_attr dfC5 ["q"] ["s"]) (1 / 2) =
    (false, [], [("s", [("q: 1", (1 / 2 : ℚ)), ("q: 2", (1 / 2 : ℚ))])]) := by
  rw [htframe5, check_t_closeness_violations_eq]
  rw [if_neg]
  simp

/-- C5 counterexample: on dfC5 (single sensitive column "s") the entropy
table holds the value 0 for class "q: 1", i.e. normalized entropy ≤ the
default threshold 0, yet evaluate reports no violation at all: reasons and
problematic_info are both empty, because iloc[:, 1:] skips the first (and
only) sensitive column of the entropy table. -/
theorem l_violation_single_column_unreported :
    ("q: 1", (0 : ℝ)) ∈ compute_categorical_normalized_entropy dfC5 ["q"] "s" ∧
    (P_29_score dfC5 ["q"] ["s"] (1 / 2) (1 / 4) (1 / 4)).reasons = [] ∧
    (P_29_score dfC5 ["q"] ["s"] (1 / 2) (1 / 4) (1 / 4)).problematic_info = [] := by
  have hE1 : entropyOf (subsetVals dfC5 "s" [0, 1]) /
      Real.logb 2 (((colVals dfC5 "s").dedup.length : ℕ) : ℝ) = 0 := by
    rw [show subsetVals dfC5 "s" [0, 1] = [Val.vStr "A", Val.vStr "A"] from by decide,
       entropy_const_pair_zero, zero_div]
  have htab : compute_categorical_normalized_entropy dfC5 ["q"] "s" =
      [("q: 1", (0 : ℝ)),
       ("q: 2", entropyOf (subsetVals dfC5 "s" [2, 3]) /
          Real.logb 2 (((colVals dfC5 "s").dedup.length : ℕ) : ℝ))] := by
    rw [show compute_categorical_normalized_entropy dfC5 ["q"] "s" =
        [("q: 1", entropyOf (subsetVals dfC5 "s" [0, 1]) /
            Real.logb 2 (((colVals dfC5 "s").dedup.length : ℕ) : ℝ)),
         ("q: 2", entropyOf (subsetVals dfC5 "s" [2, 3]) /
            Real.logb 2 (((colVals dfC5 "s").dedup.length : ℕ) : ℝ))] from rfl, hE1]
  have hK : check_k_anonymity_violations (k_anonymity_for_sensitive_attr dfC5 ["q"]) =
      (false, []) := by decide
  have hlframe : (normalized_entropy_for_sensitive_attr dfC5 ["q"] ["s"]).drop 1 = [] := rfl
  have hL1 : ¬ ∃ col ∈ (normalized_entropy_for_sensitive_attr dfC5 ["q"] ["s"]).drop 1,
      ∃ cell ∈ col.2, cell.2 = 0 := by
    rintro ⟨c, hc, _⟩
    rw [hlframe] at hc
    exact absurd hc (List.not_mem_nil c)
  refine ⟨?_, ?_, ?_⟩
  · rw [htab]
    exact List.mem_cons_self _ _
  · rw [P_29_score_reasons, validate_privacy_reasons, hK, hT5]
    rw [if_neg (show ¬ (check_l_diversity_violations
        (normalized_entropy_for_sensitive_attr dfC5 ["q"] ["s"])).1 from hL1)]
    simp
  · rw [P_29_score_problematic_info, validate_privacy_problematic_info, hK,
      check_l_diversity_violations_snd, if_neg hL1, hT5]
    simp

/-- Four-row dataset with two sensitive columns; the second column "s2" is
homogeneous inside class "q: 1" while having three distinct values in the
whole dataset. -/
def dfW5 : Dataset :=
  [[("q", Val.vInt 1), ("s1", Val.vStr "A"), ("s2", Val.vStr "C")],
   [("q", Val.vInt 1), ("s1", Val.vStr "B"), ("s2", Val.vStr "C")],
   [("q", Val.vInt 2), ("s1", Val.vStr "A"), ("s2", Val.vStr "D")],
   [("q", Val.vInt 2), ("s1", Val.vStr "B"), ("s2", Val.vStr "E")]]

/-- Witness for the amended C5: a zero entropy cell in the second
sensitive column is reported with its group key and column name. -/
theorem l_violation_reported_witness :
    ("q: 1", "normalized entropy l-value is 0 for " ++ "s2") ∈
      (P_29_score dfW5 ["q"] ["s1", "s2"] (1 / 2) (1 / 4) (1 / 4)).problematic_info ∧
    "normalized entropy l-value is 0 for some attribute" ∈
      (P_29_score dfW5 ["q"] ["s1", "s2"] (1 / 2) (1 / 4) (1 / 4)).reasons := by
  have hframe : normalized_entropy_for_sensitive_attr dfW5 ["q"] ["s1", "s2"] =
      [("s1", compute_categorical_normalized_entropy dfW5 ["q"] "s1"),
       ("s2", compute_categorical_normalized_entropy dfW5 ["q"] "s2")] := rfl
  have hcol : ("s2", compute_categorical_normalized_entropy dfW5 ["q"] "s2") ∈
      (normalized_entropy_for_sensitive_attr dfW5 ["q"] ["s1", "s2"]).drop 1 := by
    rw [hframe]
    simp
  have hcell : ("q: 1", entropyOf (subsetVals dfW5 "s2" [0, 1]) /
      Real.logb 2 (((colVals dfW5 "s2").dedup.length : ℕ) : ℝ)) ∈
      compute_categorical_normalized_entropy dfW5 ["q"] "s2" := by
    rw [show compute_categorical_normalized_entropy dfW5 ["q"] "s2" =
        [("q: 1", entropyOf (subsetVals dfW5 "s2" [0, 1]) /
            Real.logb 2 (((colVals dfW5 "s2").dedup.length : ℕ) : ℝ)),
         ("q: 2", entropyOf (subsetVals dfW5 "s2" [2, 3]) /
            Real.logb 2 (((colVals dfW5 "s2").dedup.length : ℕ) : ℝ))] from rfl]
    exact List.mem_cons_self _ _
  have hx : entropyOf (subsetVals dfW5 "s2" [0, 1]) /
      Real.logb 2 (((colVals dfW5 "s2").dedup.length : ℕ) : ℝ) = 0 := by
    rw [show subsetVals dfW5 "s2" [0, 1] = [Val.vStr "C", Val.vStr "C"] from by decide,
       entropy_const_pair_zero, zero_div]
  exact l_violation_reported_for_later_columns dfW5 ["q"] ["s1", "s2"]
    (1 / 2) (1 / 4) (1 / 4)
    ("s2", compute_categorical_normalized_entropy dfW5 ["q"] "s2") "q: 1" _ hcol hcell hx

/-- find? over the replacement branch of dictInsert. -/
lemma find_map_dictInsert {A : Type} (c : String) (v : A) :
    ∀ r : List (String × A),
      (r.map (fun p => if p.1 == c then (c, v) else p)).find? (fun p => p.1 == c) =
        if r.any (fun p => p.1 == c) then some (c, v) else none := by
  intro r
  induction r with
  | nil => rfl
  | cons p r ih =>
      by_cases h : p.1 == c
      · rw [List.map_cons, if_pos h]
        rw [List.find?_cons_of_pos _ (by simp)]
        simp [List.any_cons, h]
      · rw [List.map_cons, if_neg h]
        rw [List.find?_cons_of_neg _ (by simpa using h)]
        simp only [List.any_cons, h, Bool.false_or]
        exact ih

/-- Reading the inserted key gives the inserted value. -/
lemma NRow_get_dictInsert_self (r : NRow) (c : String) (v : NVal) :
    NRow.get (dictInsert r c v) c = v := by
  unfold dictInsert
  by_cases hany : r.any (fun p => p.1 == c) = true
  · rw [if_pos hany]
    unfold NRow.get
    rw [find_map_dictInsert, if_pos hany]
  · rw [if_neg hany]
    unfold NRow.get
    have hnone : r.find? (fun p => p.1 == c) = none := by
      rw [List.find?_eq_none]
      intro x hx hpx
      exact hany (List.any_eq_true.2 ⟨x, hx, hpx⟩)
    rw [List.find?_append, hnone]
    simp [List.find?]

/-- Reading a different key is unaffected by the insertion. -/
lemma NRow_get_dictInsert_ne (r : NRow) {c c' : String} (v : NVal) (h : c' ≠ c) :
    NRow.get (dictInsert r c v) c' = NRow.get r c' := by
  have hcc : ((c, v).1 == c') = false := by
    simp [beq_iff_eq]
    exact fun hc => h hc.symm
  unfold dictInsert
  by_cases hany : r.any (fun p => p.1 == c) = true
  · rw [if_pos hany]
    unfold NRow.get
    have hmap : ∀ rr : List (String × NVal),
        (rr.map (fun p => if p.1 == c then (c, v) else p)).find? (fun p => p.1 == c') =
          rr.find? (fun p => p.1 == c') := by
      intro rr
      induction rr with
      | nil => rfl
      | cons p rr ih =>
          by_cases hp : p.1 == c
          · have hpc2 : (p.1 == c') = false := by
              rw [show p.1 = c by simpa using hp]
              simpa using hcc
            rw [List.map_cons, if_pos hp]
            rw [List.find?_cons, List.find?_cons]
            simp only [hcc, hpc2]
            exact ih
          · rw [List.map_cons, if_neg hp]
            rw [List.find?_cons, List.find?_cons]
            cases hq : (p.1 == c')
            · simp only
              exact ih
            · rfl
    rw [hmap]
  · rw [if_neg hany]
    unfold NRow.get
    have hone : ([(c, v)].find? (fun p => p.1 == c')) = none := by
      rw [List.find?_cons]
      simp only [hcc]
      rfl
    rw [List.find?_append, hone]
    cases hr : r.find? (fun p => p.1 == c') <;> simp [hr]

/-- Inserting an existing key preserves the row's column-name list. -/
lemma dictInsert_keys {A : Type} (r : List (String × A)) (c : String) (v : A)
    (hc : c ∈ r.map Prod.fst) : (dictInsert r c v).map Prod.fst = r.map Prod.fst := by
  unfold dictInsert
  have hany : r.any (fun p => p.1 == c) = true := by
    rcases List.mem_map.1 hc with ⟨p, hp, he⟩
    exact List.any_eq_true.2 ⟨p, hp, by simp [he]⟩
  rw [if_pos hany, List.map_map]
  apply List.map_congr_left
  intro p _
  by_cases h : p.1 == c
  · have : p.1 = c := by simpa using h
    simp [Function.comp, h, this]
  · simp [Function.comp, h]

/-- Noised cells are in bijective positions with the input cells. -/
lemma rrCells_length (categories : List NVal) (keep : Nat → ℚ) (pick : Nat → Nat) :
    ∀ (i : Nat) (xs : List NVal), (rrCells categories keep pick i xs).length = xs.length := by
  intro i xs
  induction xs generalizing i with
  | nil => rfl
  | cons x xs ih => simp [rrCells, ih]

/-- Laplace-noised cells are in bijective positions with the input cells. -/
lemma lapCells_length (scale : ℝ) (us : Nat → ℝ) :
    ∀ (i : Nat) (xs : List ℝ), (lapCells scale us i xs).length = xs.length := by
  intro i xs
  induction xs generalizing i with
  | nil => rfl
  | cons x xs ih => simp [lapCells, ih]

/-- A column has one value per row. -/
lemma nColVals_length (df : NDataset) (c : String) : (nColVals df c).length = df.length := by
  simp [nColVals]

/-- Column assignment preserves the number of rows. -/
lemma setCol_length : ∀ (d : NDataset) (c : String) (vals : List NVal),
    vals.length = d.length → (setCol d c vals).length = d.length := by
  intro d
  induction d with
  | nil => intro c vals _; cases vals <;> rfl
  | cons r rs ih =>
      intro c vals hlen
      cases vals with
      | nil => simp at hlen
      | cons v vs =>
          simp only [setCol, List.length_cons]
          rw [ih c vs (by simpa using hlen)]

/-- Reading back the assigned column yields the assigned values. -/
lemma nColVals_setCol_self : ∀ (d : NDataset) (c : String) (vals : List NVal),
    vals.length = d.length → nColVals (setCol d c vals) c = vals := by
  intro d
  induction d with
  | nil =>
      intro c vals hlen
      rw [List.length_nil, List.length_eq_zero] at hlen
      rw [hlen]
      rfl
  | cons r rs ih =>
      intro c vals hlen
      cases vals with
      | nil => simp at hlen
      | cons v vs =>
          simp only [setCol, nColVals, List.map_cons]
          rw [NRow_get_dictInsert_self]
          have := ih c vs (by simpa using hlen)
          simp only [nColVals] at this
          rw [this]

/-- Assigning one column leaves every other column unchanged. -/
lemma nColVals_setCol_ne : ∀ (d : NDataset) {c c' : String} (vals : List NVal),
    c' ≠ c → vals.length = d.length →
    nColVals (setCol d c vals) c' = nColVals d c' := by
  intro d
  induction d with
  | nil =>
      intro c c' vals _ hlen
      rw [List.length_nil, List.length_eq_zero] at hlen
      rw [hlen]
      rfl
  | cons r rs ih =>
      intro c c' vals hne hlen
      cases vals with
      | nil => simp at hlen
      | cons v vs =>
          simp only [setCol, nColVals, List.map_cons]
          rw [NRow_get_dictInsert_ne _ _ hne]
          have := ih vs hne (by simpa using hlen)
          simp only [nColVals] at this
          rw [this]

/-- Assigning an existing column preserves every row's column-name list. -/
lemma setCol_keys : ∀ (d : NDataset) (c : String) (vals : List NVal),
    vals.length = d.length → (∀ r ∈ d, c ∈ r.map Prod.fst) →
    ∀ i, ((setCol d c vals).getD i []).map Prod.fst = ((d.getD i []).map Prod.fst) := by
  intro d
  induction d with
  | nil =>
      intro c vals hlen _ i
      rw [List.length_nil, List.length_eq_zero] at hlen
      rw [hlen]
      rfl
  | cons r rs ih =>
      intro c vals hlen hkeys i
      cases vals with
      | nil => simp at hlen
      | cons v vs =>
          cases i with
          | zero =>
              simp only [setCol, List.getD_cons_zero]
              exact dictInsert_keys r c v (hkeys r (List.mem_cons_self _ _))
          | succ i =>
              simp only [setCol, List.getD_cons_succ]
              exact ih c vs (by simpa using hlen)
                (fun r' hr' => hkeys r' (List.mem_cons_of_mem _ hr')) i

/-- The column-selection validator gives coverage and disjointness. -/
lemma validate_column_selection_spec {columns categorical_cols numerical_cols : List String}
    (h : validate_column_selection columns categorical_cols numerical_cols = true) :
    (∀ c, c ∈ categorical_cols ++ numerical_cols ↔ c ∈ columns) ∧
    (∀ c ∈ categorical_cols, c ∉ numerical_cols) := by
  unfold validate_column_selection at h
  rw [Bool.and_eq_true, decide_eq_true_eq, decide_eq_true_eq] at h
  constructor
  · intro c
    rw [← List.mem_toFinset, h.1, List.mem_toFinset]
  · intro c hc hn
    have hmem : c ∈ categorical_cols.toFinset ∩ numerical_cols.toFinset :=
      Finset.mem_inter.2 ⟨List.mem_toFinset.2 hc, List.mem_toFinset.2 hn⟩
    rw [h.2] at hmem
    exact absurd hmem (Finset.not_mem_empty c)

/-- A fold-min is at most the seed and a fold-max at least the seed. -/
lemma optMin_getD_le_optMax_getD (l : List ℝ) :
    (optMin l).getD 0 ≤ (optMax l).getD 0 := by
  cases l with
  | nil => simp [optMin, optMax]
  | cons x xs =>
      have hmin : ∀ (ys : List ℝ) (a : ℝ), ys.foldl min a ≤ a := by
        intro ys
        induction ys with
        | nil => intro a; exact le_refl a
        | cons y ys ih =>
            intro a
            calc List.foldl min (min a y) ys ≤ min a y := ih (min a y)
              _ ≤ a := min_le_left a y
      have hmax : ∀ (ys : List ℝ) (a : ℝ), a ≤ ys.foldl max a := by
        intro ys
        induction ys with
        | nil => intro a; exact le_refl a
        | cons y ys ih =>
            intro a
            calc a ≤ max a y := le_max_left a y
              _ ≤ List.foldl max (max a y) ys := ih (max a y)
      simp only [optMin, optMax, Option.getD_some]
      exact (hmin xs x).trans (hmax xs x)

/-- With non-negative sensitivity and positive epsilon, the Laplace sampler
never fails. -/
lemma add_laplace_noise_eq_some {column : List ℝ} {sensitivity epsilon : ℝ}
    (hs : 0 ≤ sensitivity) (he : 0 < epsilon) (us : Nat → ℝ) :
    add_laplace_noise column sensitivity epsilon us =
      some (lapCells (sensitivity / epsilon) us 0 column) := by
  unfold add_laplace_noise
  rw [if_neg]
  exact not_lt.2 (div_nonneg hs he.le)

/-- Shape preservation through a pure column-assignment fold. -/
lemma foldl_setCol_shape (df : NDataset) (valsOf : String → List NVal)
    (columns : List String)
    (huni : ∀ r ∈ df, r.map Prod.fst = columns)
    (hlen : ∀ c, (valsOf c).length = df.length) :
    ∀ (cs : List String), (∀ c ∈ cs, c ∈ columns) →
    ∀ acc : NDataset, acc.length = df.length →
      (∀ i, ((acc.getD i []).map Prod.fst) = ((df.getD i []).map Prod.fst)) →
      (cs.foldl (fun d c => setCol d c (valsOf c)) acc).length = df.length ∧
      (∀ i, (((cs.foldl (fun d c => setCol d c (valsOf c)) acc).getD i []).map Prod.fst) =
        ((df.getD i []).map Prod.fst)) := by
  intro cs
  induction cs with
  | nil =>
      intro _ acc h1 h2
      exact ⟨h1, h2⟩
  | cons c cs ih =>
      intro hin acc h1 h2
      rw [List.foldl_cons]
      have hvlen : (valsOf c).length = acc.length := by rw [hlen c, h1]
      have hkeys : ∀ r ∈ acc, c ∈ r.map Prod.fst := by
        intro r hr
        rcases List.mem_iff_getElem.1 hr with ⟨j, hj, hjr⟩
        have h2j := h2 j
        rw [List.getD_eq_getElem acc [] hj, hjr] at h2j
        have hj' : j < df.length := h1 ▸ hj
        have hdf : df.getD j [] ∈ df := by
          rw [List.getD_eq_getElem df [] hj']
          exact List.getElem_mem hj'
        rw [h2j, huni _ hdf]
        exact hin c (List.mem_cons_self _ _)
      refine ih (fun c' hc' => hin c' (List.mem_cons_of_mem _ hc')) _ ?_ ?_
      · rw [setCol_length _ _ _ hvlen, h1]
      · intro i
        rw [setCol_keys acc c (valsOf c) hvlen hkeys i]
        exact h2 i

/-- A column not in the processed list is unchanged by the fold. -/
lemma foldl_setCol_untouched (df : NDataset) (valsOf : String → List NVal) (c0 : String)
    (hlen : ∀ c, (valsOf c).length = df.length) :
    ∀ (cs : List String), c0 ∉ cs →
    ∀ acc : NDataset, acc.length = df.length →
      nColVals (cs.foldl (fun d c => setCol d c (valsOf c)) acc) c0 = nColVals acc c0 := by
  intro cs
  induction cs with
  | nil =>
      intro _ acc _
      rfl
  | cons c cs ih =>
      intro hc0 acc hlen1
      rw [List.foldl_cons]
      have hvlen : (valsOf c).length = acc.length := by rw [hlen c, hlen1]
      have hne : c0 ≠ c := fun h => hc0 (h ▸ List.mem_cons_self _ _)
      rw [ih (fun h => hc0 (List.mem_cons_of_mem _ h)) _
        (by rw [setCol_length _ _ _ hvlen, hlen1])]
      exact nColVals_setCol_ne acc _ hne hvlen

/-- A column whose assigned values equal the original dataset's column is
preserved by the fold. -/
lemma foldl_setCol_const_col (df : NDataset) (valsOf : String → List NVal) (c0 : String)
    (hlen : ∀ c, (valsOf c).length = df.length)
    (hc0 : valsOf c0 = nColVals df c0) :
    ∀ (cs : List String) (acc : NDataset), acc.length = df.length →
      nColVals acc c0 = nColVals df c0 →
      nColVals (cs.foldl (fun d c => setCol d c (valsOf c)) acc) c0 = nColVals df c0 := by
  intro cs
  induction cs with
  | nil =>
      intro acc _ h
      exact h
  | cons c cs ih =>
      intro acc h1 h2
      rw [List.foldl_cons]
      have hvlen : (valsOf c).length = acc.length := by rw [hlen c, h1]
      refine ih _ (by rw [setCol_length _ _ _ hvlen, h1]) ?_
      by_cases hc : c0 = c
      · subst hc
        rw [nColVals_setCol_self acc c0 (valsOf c0) hvlen, hc0]
      · rw [nColVals_setCol_ne acc _ hc hvlen]
        exact h2

/-- After the fold processes a column, every value of that column comes
from the assigned value list. -/
lemma foldl_setCol_closed (df : NDataset) (valsOf : String → List NVal) (c0 : String)
    (S : List NVal)
    (hlen : ∀ c, (valsOf c).length = df.length)
    (hc0 : ∀ v ∈ valsOf c0, v ∈ S) :
    ∀ (cs : List String) (acc : NDataset), acc.length = df.length → c0 ∈ cs →
      ∀ v ∈ nColVals (cs.foldl (fun d c => setCol d c (valsOf c)) acc) c0, v ∈ S := by
  intro cs
  induction cs with
  | nil =>
      intro _ _ h
      exact absurd h (List.not_mem_nil c0)
  | cons c cs ih =>
      intro acc h1 hmem v hv
      rw [List.foldl_cons] at hv
      have hvlen : (valsOf c).length = acc.length := by rw [hlen c, h1]
      have hlen2 : (setCol acc c (valsOf c)).length = df.length := by
        rw [setCol_length _ _ _ hvlen, h1]
      by_cases hin : c0 ∈ cs
      · exact ih _ hlen2 hin v hv
      · have hc : c = c0 := by
          rcases List.mem_cons.1 hmem with h | h
          · exact h.symm
          · exact absurd h hin
        subst hc
        rw [foldl_setCol_untouched df valsOf c hlen cs hin _ hlen2] at hv
        rw [nColVals_setCol_self acc c (valsOf c) hvlen] at hv
        exact hc0 v hv

/-- A randomized-response output is the original value or a category. -/
lemma add_randomized_response_mem (x : NVal) (categories : List NVal) (p kd : ℚ)
    (pd : Nat) : add_randomized_response x categories p kd pd ∈ x :: categories := by
  unfold add_randomized_response
  split
  · exact List.mem_cons_self _ _
  · rcases eq_or_ne categories [] with rfl | h
    · simp [List.getD]
    · refine List.mem_cons_of_mem _ ?_
      have hpos : 0 < categories.length :=
        List.length_pos.2 h
      have hlt : pd % categories.length < categories.length := Nat.mod_lt _ hpos
      rw [List.getD_eq_getElem _ _ hlt]
      exact List.getElem_mem hlt

/-- Every randomized-response cell is an input cell or a category. -/
lemma rrCells_mem (categories : List NVal) (keep : Nat → ℚ) (pick : Nat → Nat) :
    ∀ (i : Nat) (xs : List NVal) (v : NVal),
      v ∈ rrCells categories keep pick i xs → v ∈ xs ∨ v ∈ categories := by
  intro i xs
  induction xs generalizing i with
  | nil =>
      intro v hv
      exact absurd hv (List.not_mem_nil v)
  | cons x xs ih =>
      intro v hv
      rcases List.mem_cons.1 hv with h | h
      · rcases List.mem_cons.1 (h ▸ add_randomized_response_mem x categories (1 / 2)
          (keep i) (pick i)) with h' | h'
        · exact Or.inl (h' ▸ List.mem_cons_self _ _)
        · exact Or.inr h'
      · rcases ih (i + 1) v h with h' | h'
        · exact Or.inl (List.mem_cons_of_mem _ h')
        · exact Or.inr h'

/-- The numeric-noising fold stays failed once failed. -/
lemma num_foldl_none (df : NDataset) (eps : ℝ) (o : NoiseOracle) :
    ∀ nums : List String,
      nums.foldl (fun acc column => acc.bind (fun noisy =>
        (add_laplace_noise (numColVals df column)
          ((optMax (numColVals df column)).getD 0 - (optMin (numColVals df column)).getD 0)
          eps (o.lap_u column)).map
          (fun newcol => setCol noisy column (newcol.map NVal.num)))) none = none := by
  intro nums
  induction nums with
  | nil => rfl
  | cons c cs ih =>
      rw [List.foldl_cons]
      exact ih

/-- A numeric-noising fold that returns a dataset equals the pure fold of
Laplace-noised column assignments. -/
lemma num_foldl_some_inv (df : NDataset) (eps : ℝ) (o : NoiseOracle) :
    ∀ (nums : List String) (acc d : NDataset),
      nums.foldl (fun acc column => acc.bind (fun noisy =>
        (add_laplace_noise (numColVals df column)
          ((optMax (numColVals df column)).getD 0 - (optMin (numColVals df column)).getD 0)
          eps (o.lap_u column)).map
          (fun newcol => setCol noisy column (newcol.map NVal.num)))) (some acc) = some d →
      d = nums.foldl (fun dd column => setCol dd column
        ((lapCells (((optMax (numColVals df column)).getD 0 -
            (optMin (numColVals df column)).getD 0) / eps) (o.lap_u column) 0
          (numColVals df column)).map NVal.num)) acc := by
  intro nums
  induction nums with
  | nil =>
      intro acc d h
      cases h
      rfl
  | cons c cs ih =>
      intro acc d h
      rw [List.foldl_cons] at h
      rw [List.foldl_cons]
      by_cases hscale : ((optMax (numColVals df c)).getD 0 -
          (optMin (numColVals df c)).getD 0) / eps < 0
      · rw [show add_laplace_noise (numColVals df c)
            ((optMax (numColVals df c)).getD 0 - (optMin (numColVals df c)).getD 0)
            eps (o.lap_u c) = none from by
          unfold add_laplace_noise
          rw [if_pos hscale]] at h
        rw [show ((some acc).bind (fun noisy =>
            (none : Option (List ℝ)).map
              (fun newcol => setCol noisy c (newcol.map NVal.num)))) = none from rfl] at h
        rw [num_foldl_none df eps o cs] at h
        exact absurd h (by simp)
      · rw [show add_laplace_noise (numColVals df c)
            ((optMax (numColVals df c)).getD 0 - (optMin (numColVals df c)).getD 0)
            eps (o.lap_u c) = some (lapCells (((optMax (numColVals df c)).getD 0 -
              (optMin (numColVals df c)).getD 0) / eps) (o.lap_u c) 0
              (numColVals df c)) from by
          unfold add_laplace_noise
          rw [if_neg hscale]] at h
        exact ih _ _ h

/-- With positive epsilon the numeric-noising fold always succeeds, with
the pure fold as its value. -/
lemma num_foldl_pos_some (df : NDataset) (eps : ℝ) (o : NoiseOracle) (he : 0 < eps) :
    ∀ (nums : List String) (acc : NDataset),
      nums.foldl (fun acc column => acc.bind (fun noisy =>
        (add_laplace_noise (numColVals df column)
          ((optMax (numColVals df column)).getD 0 - (optMin (numColVals df column)).getD 0)
          eps (o.lap_u column)).map
          (fun newcol => setCol noisy column (newcol.map NVal.num)))) (some acc) =
      some (nums.foldl (fun dd column => setCol dd column
        ((lapCells (((optMax (numColVals df column)).getD 0 -
            (optMin (numColVals df column)).getD 0) / eps) (o.lap_u column) 0
          (numColVals df column)).map NVal.num)) acc) := by
  intro nums
  induction nums with
  | nil => intro acc; rfl
  | cons c cs ih =>
      intro acc
      rw [List.foldl_cons, List.foldl_cons]
      rw [add_laplace_noise_eq_some
        (sub_nonneg.2 (optMin_getD_le_optMax_getD (numColVals df c))) he (o.lap_u c)]
      exact ih _

/-- add_noise_to_df, decomposed into the two pure folds it performs when it
returns a dataset. -/
lemma add_noise_to_df_some_inv (df : NDataset)
    (categorical_columns numerical_columns : List String) (epsilon : ℝ)
    (o : NoiseOracle) (d : NDataset)
    (h : add_noise_to_df df categorical_columns numerical_columns epsilon o = some d) :
    d = categorical_columns.foldl (fun dd column => setCol dd column
        (rrCells ((nColVals df column).dedup) (o.rr_keep column) (o.rr_pick column) 0
          (nColVals df column)))
      (numerical_columns.foldl (fun dd column => setCol dd column
        ((lapCells (((optMax (numColVals df column)).getD 0 -
            (optMin (numColVals df column)).getD 0) / epsilon) (o.lap_u column) 0
          (numColVals df column)).map NVal.num)) df) := by
  unfold add_noise_to_df at h
  cases hmid : numerical_columns.foldl (fun acc column => acc.bind (fun noisy =>
      (add_laplace_noise (numColVals df column)
        ((optMax (numColVals df column)).getD 0 - (optMin (numColVals df column)).getD 0)
        epsilon (o.lap_u column)).map
        (fun newcol => setCol noisy column (newcol.map NVal.num)))) (some df) with
  | none =>
      rw [hmid] at h
      exact absurd h (by simp)
  | some mid =>
      rw [hmid] at h
      have hd : d = categorical_columns.foldl (fun noisy column =>
          setCol noisy column (rrCells ((nColVals df column).dedup) (o.rr_keep column)
            (o.rr_pick column) 0 (nColVals df column))) mid := by
        simpa using h.symm
      rw [hd, num_foldl_some_inv df epsilon o numerical_columns df mid hmid]

/-- C8 (amended): with epsilon > 0 add_noise_to_df returns a noised
dataset; no error of any kind is raised. -/
theorem add_noise_returns_for_positive_epsilon (df : NDataset)
    (categorical_columns numerical_columns : List String) (epsilon : ℝ)
    (o : NoiseOracle) (he : 0 < epsilon) :
    ∃ d, add_noise_to_df df categorical_columns numerical_columns epsilon o = some d := by
  unfold add_noise_to_df
  rw [num_foldl_pos_some df epsilon o he numerical_columns df]
  exact ⟨_, rfl⟩

/-- The Laplace-noised numeric column that add_noise_to_df writes. -/
noncomputable def numNoised (df : NDataset) (epsilon : ℝ) (o : NoiseOracle)
    (c : String) : List NVal :=
  (lapCells (((optMax (numColVals df c)).getD 0 - (optMin (numColVals df c)).getD 0) / epsilon)
    (o.lap_u c) 0 (numColVals df c)).map NVal.num

/-- The randomized-response categorical column that add_noise_to_df writes. -/
noncomputable def catNoised (df : NDataset) (o : NoiseOracle) (c : String) : List NVal :=
  rrCells ((nColVals df c).dedup) (o.rr_keep c) (o.rr_pick c) 0 (nColVals df c)

/-- With positive epsilon, add_noise_to_df as the two pure folds. -/
lemma add_noise_to_df_pos_eq (df : NDataset)
    (categorical_columns numerical_columns : List String) (epsilon : ℝ)
    (o : NoiseOracle) (he : 0 < epsilon) :
    add_noise_to_df df categorical_columns numerical_columns epsilon o = some
      (categorical_columns.foldl (fun dd column => setCol dd column (catNoised df o column))
        (numerical_columns.foldl
          (fun dd column => setCol dd column (numNoised df epsilon o column)) df)) := by
  unfold add_noise_to_df
  rw [num_foldl_pos_some df epsilon o he numerical_columns df]
  rfl

/-- A pure column-assignment fold preserves the row count. -/
lemma foldl_setCol_length (df : NDataset) (valsOf : String → List NVal)
    (hlen : ∀ c, (valsOf c).length = df.length) :
    ∀ (cs : List String) (acc : NDataset), acc.length = df.length →
      (cs.foldl (fun d c => setCol d c (valsOf c)) acc).length = df.length := by
  intro cs
  induction cs with
  | nil =>
      intro acc h
      exact h
  | cons c cs ih =>
      intro acc h
      rw [List.foldl_cons]
      exact ih _ ((setCol_length acc c (valsOf c) ((hlen c).trans h.symm)).trans h)

/-- Folding min or max over a constant list is the identity, so a constant
column has sensitivity max - min = 0. -/
lemma optMax_sub_optMin_const (l : List ℝ) (x : ℝ) (h : ∀ v ∈ l, v = x) :
    (optMax l).getD 0 - (optMin l).getD 0 = 0 := by
  cases l with
  | nil => simp [optMin, optMax]
  | cons y ys =>
      have hfold : ∀ f : ℝ → ℝ → ℝ, (∀ a, f a a = a) →
          ∀ zs : List ℝ, (∀ v ∈ zs, v = x) → zs.foldl f x = x := by
        intro f hf zs
        induction zs with
        | nil => intro _; rfl
        | cons z zs ih =>
            intro hz
            rw [List.foldl_cons, hz z (List.mem_cons_self z zs), hf]
            exact ih (fun v hv => hz v (List.mem_cons_of_mem z hv))
      have hy : y = x := h y (List.mem_cons_self y ys)
      have hys : ∀ v ∈ ys, v = x := fun v hv => h v (List.mem_cons_of_mem y hv)
      simp only [optMin, optMax, Option.getD_some]
      rw [hy, hfold max max_self ys hys, hfold min min_self ys hys, sub_self]

/-- Laplace noise at scale 0 is the identity on the column. -/
lemma lapCells_zero (us : Nat → ℝ) : ∀ (i : Nat) (xs : List ℝ),
    lapCells 0 us i xs = xs := by
  intro i xs
  induction xs generalizing i with
  | nil => rfl
  | cons x xs ih => simp [lapCells, laplace_sample, ih]

/-- C9: for every dataset with a uniform row schema, every valid column
selection and every epsilon > 0, add_noise_to_df returns a dataset with the
same row count and the same column names on every row, and every numeric
column whose values are all equal comes back unchanged: sensitivity
max - min = 0 gives scale-0 Laplace noise, a no-op rather than an error. -/
theorem add_noise_preserves_shape_and_constant_columns
    (df : NDataset) (columns categorical_columns numerical_columns : List String)
    (epsilon : ℝ) (o : NoiseOracle)
    (he : 0 < epsilon)
    (huni : ∀ r ∈ df, r.map Prod.fst = columns)
    (hval : validate_column_selection columns categorical_columns numerical_columns = true) :
    ∃ d, add_noise_to_df df categorical_columns numerical_columns epsilon o = some d ∧
      d.length = df.length ∧
      (∀ i, ((d.getD i []).map Prod.fst) = ((df.getD i []).map Prod.fst)) ∧
      (∀ c x0, c ∈ numerical_columns →
        (∀ v ∈ nColVals df c, v = NVal.num x0) →
        nColVals d c = nColVals df c) := by
  obtain ⟨hcover, hdisj⟩ := validate_column_selection_spec hval
  have hlenNum : ∀ c, (numNoised df epsilon o c).length = df.length := by
    intro c
    unfold numNoised
    rw [List.length_map, lapCells_length]
    simp [numColVals, nColVals]
  have hlenCat : ∀ c, (catNoised df o c).length = df.length := by
    intro c
    unfold catNoised
    rw [rrCells_length, nColVals_length]
  have hmid := foldl_setCol_shape df (numNoised df epsilon o) columns huni hlenNum
    numerical_columns (fun c hc => (hcover c).1 (List.mem_append.2 (Or.inr hc))) df rfl
    (fun _ => rfl)
  have hfin := foldl_setCol_shape df (catNoised df o) columns huni hlenCat
    categorical_columns (fun c hc => (hcover c).1 (List.mem_append.2 (Or.inl hc)))
    (numerical_columns.foldl
      (fun dd column => setCol dd column (numNoised df epsilon o column)) df)
    hmid.1 hmid.2
  refine ⟨_, add_noise_to_df_pos_eq df categorical_columns numerical_columns epsilon o he,
    hfin.1, hfin.2, ?_⟩
  intro c x0 hcnum hconst
  have hsens : (optMax (numColVals df c)).getD 0 - (optMin (numColVals df c)).getD 0 = 0 := by
    apply optMax_sub_optMin_const _ x0
    intro v hv
    rcases List.mem_map.1 hv with ⟨w, hw, rfl⟩
    rw [hconst w hw]
    rfl
  have hnum0 : numNoised df epsilon o c = nColVals df c := by
    unfold numNoised
    rw [hsens, zero_div, lapCells_zero (o.lap_u c)]
    unfold numColVals
    rw [List.map_map]
    have hid : ∀ v ∈ nColVals df c, (NVal.num ∘ NVal.toNum) v = v := by
      intro v hv
      rw [hconst v hv]
      rfl
    calc (nColVals df c).map (NVal.num ∘ NVal.toNum)
        = (nColVals df c).map id := List.map_congr_left hid
      _ = nColVals df c := List.map_id _
  have hmidc : nColVals (numerical_columns.foldl
      (fun dd column => setCol dd column (numNoised df epsilon o column)) df) c =
      nColVals df c :=
    foldl_setCol_const_col df (numNoised df epsilon o) c hlenNum hnum0
      numerical_columns df rfl rfl
  have hccat : c ∉ categorical_columns := fun hcc => hdisj c hcc hcnum
  rw [foldl_setCol_untouched df (catNoised df o) c hlenCat categorical_columns hccat _
    hmid.1, hmidc]

/-- A two-row dataset with one constant numeric column. -/
def dfW9 : NDataset := [[("n", NVal.num 3)], [("n", NVal.num 3)]]

/-- A deterministic noise oracle: the randomized-response coin always
draws 0 (below p = 0.5, so the original value is kept), the category index
draw is 0, and the Laplace uniform draw is 0. -/
def oW : NoiseOracle :=
  { rr_keep := fun _ _ => 0, rr_pick := fun _ _ => 0, lap_u := fun _ _ => 0 }

theorem add_noise_preserves_shape_witness :
    (0:ℝ) < 1 ∧ (∀ r ∈ dfW9, r.map Prod.fst = ["n"]) ∧
      validate_column_selection ["n"] [] ["n"] = true ∧
      (∃ d, add_noise_to_df dfW9 [] ["n"] 1 oW = some d ∧
        d.length = dfW9.length ∧
        (∀ i, ((d.getD i []).map Prod.fst) = ((dfW9.getD i []).map Prod.fst)) ∧
        (∀ c x0, c ∈ ["n"] →
          (∀ v ∈ nColVals dfW9 c, v = NVal.num x0) →
          nColVals d c = nColVals dfW9 c)) :=
  ⟨by norm_num, by decide, by decide,
    add_noise_preserves_shape_and_constant_columns dfW9 ["n"] [] ["n"] 1 oW
      (by norm_num) (by decide) (by decide)⟩

/-- A one-row dataset with one categorical column. -/
def dfW8 : NDataset := [[("c", NVal.cat "a")]]

lemma dfW8_col : nColVals dfW8 "c" = [NVal.cat "a"] := rfl

/-- On dfW8 with only the categorical column selected, add_noise_to_df
succeeds for EVERY epsilon and (with oracle oW always keeping the original
value) returns the dataset unchanged: epsilon is never inspected on the
categorical path. -/
lemma dfW8_noise_eval (eps : ℝ) :
    add_noise_to_df dfW8 ["c"] [] eps oW = some dfW8 := by
  have hded : ([NVal.cat "a"] : List NVal).dedup = [NVal.cat "a"] := by simp
  have hkeep : oW.rr_keep "c" 0 < 1 / 2 := by
    show (0:ℚ) < 1 / 2
    norm_num
  have hrr : rrCells [NVal.cat "a"] (oW.rr_keep "c") (oW.rr_pick "c") 0 [NVal.cat "a"]
      = [NVal.cat "a"] := by
    simp [rrCells, add_randomized_response, hkeep]
  show some (setCol dfW8 "c" (rrCells ((nColVals dfW8 "c").dedup) (oW.rr_keep "c")
      (oW.rr_pick "c") 0 (nColVals dfW8 "c"))) = some dfW8
  rw [dfW8_col, hded, hrr]
  rfl

/-- C8 counterexample: with epsilon = -1 <= 0, add_noise_to_df does not
fail with any error: it returns a noised dataset. No epsilon validation
exists anywhere on this path. -/
theorem add_noise_negative_epsilon_no_error :
    add_noise_to_df dfW8 ["c"] [] (-1) oW = some dfW8 :=
  dfW8_noise_eval (-1)

theorem add_noise_returns_for_positive_epsilon_witness :
    (0:ℝ) < 1 ∧ ∃ d, add_noise_to_df [] [] [] 1 oW = some d :=
  ⟨by norm_num, add_noise_returns_for_positive_epsilon [] [] [] 1 oW (by norm_num)⟩

/-- C10: whenever add_noise_to_df returns a dataset, every entry of a
noised categorical column is a value that already occurs in that column of
the input dataset: randomized response either keeps the original cell or
draws from the column's distinct values. -/
theorem randomized_response_closed (df : NDataset)
    (categorical_columns numerical_columns : List String) (epsilon : ℝ)
    (o : NoiseOracle) (c : String) (d : NDataset)
    (hc : c ∈ categorical_columns)
    (h : add_noise_to_df df categorical_columns numerical_columns epsilon o = some d) :
    ∀ v ∈ nColVals d c, v ∈ nColVals df c := by
  have hd := add_noise_to_df_some_inv df categorical_columns numerical_columns epsilon o d h
  rw [hd]
  have hlenNum : ∀ col, ((lapCells (((optMax (numColVals df col)).getD 0 -
      (optMin (numColVals df col)).getD 0) / epsilon) (o.lap_u col) 0
      (numColVals df col)).map NVal.num).length = df.length := by
    intro col
    rw [List.length_map, lapCells_length]
    simp [numColVals, nColVals]
  exact foldl_setCol_closed df
    (fun col => rrCells ((nColVals df col).dedup) (o.rr_keep col) (o.rr_pick col) 0
      (nColVals df col))
    c (nColVals df c)
    (fun col => by rw [rrCells_length, nColVals_length])
    (fun v hv => by
      rcases rrCells_mem ((nColVals df c).dedup) (o.rr_keep c) (o.rr_pick c) 0
        (nColVals df c) v hv with h1 | h1
      · exact h1
      · exact List.mem_dedup.1 h1)
    categorical_columns _
    (foldl_setCol_length df _ hlenNum numerical_columns df rfl) hc

theorem randomized_response_closed_witness :
    ("c" ∈ ["c"]) ∧ (add_noise_to_df dfW8 ["c"] [] 2 oW = some dfW8) ∧
      (∀ v ∈ nColVals dfW8 "c", v ∈ nColVals dfW8 "c") :=
  ⟨List.mem_cons_self _ _, dfW8_noise_eval 2,
    randomized_response_closed dfW8 ["c"] [] 2 oW "c" dfW8
      (List.mem_cons_self _ _) (dfW8_noise_eval 2)⟩

end Theorems

end FAIRDatabase
